import Mathlib

/-!
# Verification development for the `pdb_manip_py` atom-table subsystem

The repository's visible material documents (README, Sphinx docs, usage
notebook) a tabular atomic-coordinate library: selection by field
predicates, rigid-body geometric transforms, Kabsch alignment and RMSD.
The implementation module `pdb_manip.py` itself is not among the supplied
sources, so every operation below is modelled from the specification's
words and from the public API shown in the documentation, then the
specified properties are proved (or refuted) against those models.

Layer 1 (rational, fully executable): atom records, tables,
`select_part_dict`, `translate`, `rotate`, unique-residue-id assignment.

Layer 2 (real): coordinate sets, RMSD, cross-covariance, the Kabsch
rotation built from an SVD oracle, and the optimality of the resulting
rigid transformation.
-/

namespace PdbManip

/-- Rational 3-vector: coordinate triple of one atom. -/
abbrev V3q := Fin 3 → ℚ

/-- Rational 3×3 matrix, used by the executable transform layer. -/
abbrev Mat3q := Matrix (Fin 3) (Fin 3) ℚ

/-- Modelled from the spec: one row of the Atom Table (§3 Data Model) of
`pdb_manip.py` (module absent from the supplied sources).  Fields follow
the schema listed in §3 and in the usage notebook. -/
structure Atom where
  num : Nat
  name : String
  alter_loc : String
  res_name : String
  chain : String
  res_num : Int
  uniq_resid : Nat
  insert_res : String
  pos : V3q
  occ : ℚ
  beta : ℚ
deriving DecidableEq

/-- Modelled from the spec: the Atom Table of `pdb_manip.py` (absent from
the supplied sources), an ordered sequence of atom records sharing one
coordinate frame. -/
structure Table where
  atoms : List Atom
deriving DecidableEq

/-- The residue identity tuple (chain, residue number, insertion code). -/
abbrev ResTuple := String × Int × String

/-- Residue tuple of an atom record. -/
def Atom.resTuple (a : Atom) : ResTuple := (a.chain, a.res_num, a.insert_res)

/-! ## Selection -/

/-- A value a selection criterion can compare a field against. -/
inductive FieldVal where
  | s : String → FieldVal
  | i : Int → FieldVal
  | q : ℚ → FieldVal
  | v : V3q → FieldVal
deriving DecidableEq

/-- Modelled from the spec: a per-field predicate of `select_part_dict`
(§4.1): either a membership test against a list of acceptable values or a
numeric range. -/
inductive Criterion where
  | mem : List FieldVal → Criterion
  | range : ℚ → ℚ → Criterion
deriving DecidableEq

/-- Modelled from the spec: the `selec_dict` argument of
`select_part_dict` — a mapping from field names to per-field criteria. -/
abbrev SelecDict := List (String × Criterion)

/-- Modelled from the spec: the ten field names the selection dictionary
accepts, exactly as listed in the usage notebook. -/
def schemaFields : List String :=
  ["name", "alter_loc", "res_name", "chain", "res_num",
   "uniq_resid", "insert_res", "xyz", "occ", "beta"]

/-- Modelled from the spec: dynamic field lookup on an atom record,
returning `none` for a field name outside the schema. -/
def fieldValue (a : Atom) : String → Option FieldVal
  | "name" => some (.s a.name)
  | "alter_loc" => some (.s a.alter_loc)
  | "res_name" => some (.s a.res_name)
  | "chain" => some (.s a.chain)
  | "res_num" => some (.i a.res_num)
  | "uniq_resid" => some (.i (a.uniq_resid : Int))
  | "insert_res" => some (.s a.insert_res)
  | "xyz" => some (.v a.pos)
  | "occ" => some (.q a.occ)
  | "beta" => some (.q a.beta)
  | _ => none

/-- Numeric view of a field value, for range criteria. -/
def FieldVal.asRat : FieldVal → Option ℚ
  | .i n => some (n : ℚ)
  | .q x => some x
  | _ => none

/-- Modelled from the spec: whether one field value satisfies one
criterion (membership in the list of acceptable values, or containment in
a numeric range). -/
def matchesCrit (fv : FieldVal) : Criterion → Bool
  | .mem vs => decide (fv ∈ vs)
  | .range lo hi =>
    match fv.asRat with
    | some x => decide (lo ≤ x ∧ x ≤ hi)
    | none => false

/-- Modelled from the spec: whether an atom satisfies the criterion for
one named field; an out-of-schema field matches nothing. -/
def matchesField (a : Atom) (f : String) (c : Criterion) : Bool :=
  match fieldValue a f with
  | some fv => matchesCrit fv c
  | none => false

/-- Modelled from the spec: whether an atom satisfies every field
predicate of a selection dictionary (predicates combined with AND). -/
def matchesDict (a : Atom) (sd : SelecDict) : Bool :=
  sd.all fun p => matchesField a p.1 p.2

/-- Error kinds of the modelled subsystem (§7 of the spec). -/
inductive PdbError where
  | invalidField
  | shapeMismatch
deriving DecidableEq

/-- Modelled from the spec: `select_part_dict` (§4.1), absent from the
supplied sources.  Fails with `invalidField` when some predicate names a
field outside the schema; otherwise filters the atom list, keeping
original relative order, into a fresh table. -/
def selectPartDict (t : Table) (sd : SelecDict) : Except PdbError Table :=
  if sd.all (fun p => schemaFields.contains p.1) then
    .ok ⟨t.atoms.filter (fun a => matchesDict a sd)⟩
  else
    .error .invalidField

/-! ## Geometric transforms (executable layer) -/

/-- Modelled from the spec: `translate` (§4.4 contract of the absent
`pdb_manip.py`): every atom position is shifted by the vector, in the
whole table, with no selection filtering. -/
def translate (t : Table) (v : V3q) : Table :=
  ⟨t.atoms.map fun a => { a with pos := a.pos + v }⟩

/-- Modelled from the spec: `rotate` (§4.4 contract of the absent
`pdb_manip.py`): every atom position becomes `M · (pos − pivot) + pivot`,
in the whole table, with no selection filtering. -/
def rotate (t : Table) (m : Mat3q) (pivot : V3q) : Table :=
  ⟨t.atoms.map fun a => { a with pos := m.mulVec (a.pos - pivot) + pivot }⟩

/-- The spec's unified per-atom transform formula (§4.4):
`position' = matrix · (position − pivot) + pivot + vector`. -/
def specTransformPos (m : Mat3q) (pivot v p : V3q) : V3q :=
  m.mulVec (p - pivot) + pivot + v

/-- Modelled from the spec: a store of independently owned tables —
mutation of one table of the store is explicit state passing that
rewrites only that slot. -/
def worldApply (w : Nat → Table) (j : Nat) (f : Table → Table) : Nat → Table :=
  fun i => if i = j then f (w i) else w i

/-! ## Unique residue id assignment -/

/-- Index of the first occurrence of an element in a list (length of the
list when absent). -/
def idxIn (x : ResTuple) : List ResTuple → Nat
  | [] => 0
  | y :: ys => if y = x then 0 else idxIn x ys + 1

/-- Modelled from the spec: the zero-based unique residue id stream —
each record's (chain, residue number, insertion code) tuple is mapped to
the rank of that tuple in first-seen order (§3 data model of the absent
`pdb_manip.py`).  `seen` is the accumulator of distinct tuples met so
far, in order. -/
def assignUniq (seen : List ResTuple) : List ResTuple → List Nat
  | [] => []
  | t :: ts =>
    if t ∈ seen then idxIn t seen :: assignUniq seen ts
    else seen.length :: assignUniq (seen ++ [t]) ts

/-- Raw atom record, as delivered by the parsing boundary: everything of
an `Atom` except the derived fields `num` and `uniq_resid`. -/
structure RawAtom where
  name : String
  alter_loc : String
  res_name : String
  chain : String
  res_num : Int
  insert_res : String
  pos : V3q
  occ : ℚ
  beta : ℚ
deriving DecidableEq

/-- Residue tuple of a raw record. -/
def RawAtom.resTuple (r : RawAtom) : ResTuple := (r.chain, r.res_num, r.insert_res)

/-- Promote a raw record with its table index and unique residue id. -/
def RawAtom.toAtom (r : RawAtom) (idx uniq : Nat) : Atom :=
  ⟨idx, r.name, r.alter_loc, r.res_name, r.chain, r.res_num, uniq,
   r.insert_res, r.pos, r.occ, r.beta⟩

/-- Modelled from the spec: parsing an external record sequence into an
Atom Table — indices by insertion order, unique residue ids per distinct
residue tuple in first-seen order (the parsing step of the absent
`pdb_manip.py`). -/
def mkTable (raws : List RawAtom) : Table :=
  ⟨List.zipWith (fun (r : RawAtom) (p : Nat × Nat) => r.toAtom p.1 p.2)
    raws ((List.range raws.length).zip
      (assignUniq [] (raws.map RawAtom.resTuple)))⟩

/-- Decidable check that equal residue tuples are contiguous: scanning
left to right with the accumulator of tuples already seen, a tuple met
again must be the one seen most recently. -/
def groupedFrom (seen : List ResTuple) : List ResTuple → Bool
  | [] => true
  | t :: ts =>
    if t ∈ seen then
      decide (seen.getLast? = some t) && groupedFrom seen ts
    else
      groupedFrom (seen ++ [t]) ts

/-- A record stream is grouped when equal residue tuples are contiguous. -/
def Grouped (l : List ResTuple) : Prop := groupedFrom [] l = true

instance (l : List ResTuple) : Decidable (Grouped l) :=
  inferInstanceAs (Decidable (groupedFrom [] l = true))

/-! ## Selection: basic lemmas -/

instance : DecidableEq (Except PdbError Table) := fun x y =>
  match x, y with
  | .ok a, .ok b =>
    if h : a = b then .isTrue (by rw [h]) else .isFalse (by intro hc; cases hc; exact h rfl)
  | .error a, .error b =>
    if h : a = b then .isTrue (by rw [h]) else .isFalse (by intro hc; cases hc; exact h rfl)
  | .ok _, .error _ => .isFalse (by intro hc; cases hc)
  | .error _, .ok _ => .isFalse (by intro hc; cases hc)

lemma selectPartDict_ok_iff (t : Table) (sd : SelecDict) (t' : Table) :
    selectPartDict t sd = .ok t' ↔
      (sd.all (fun p => schemaFields.contains p.1) = true ∧
        t' = ⟨t.atoms.filter (fun a => matchesDict a sd)⟩) := by
  unfold selectPartDict
  split
  · next hvalid =>
    simp only [hvalid, Except.ok.injEq, true_and]
    exact eq_comm
  · next hvalid =>
    constructor
    · intro h; exact Except.noConfusion h
    · rintro ⟨hc, -⟩; exact absurd hc hvalid

lemma selectPartDict_error_iff (t : Table) (sd : SelecDict) :
    (∃ e, selectPartDict t sd = .error e) ↔
      ¬ (sd.all (fun p => schemaFields.contains p.1) = true) := by
  unfold selectPartDict
  split
  · next hvalid =>
    constructor
    · rintro ⟨e, he⟩; exact Except.noConfusion he
    · intro hc; exact absurd hvalid hc
  · next hvalid =>
    constructor
    · intro _; exact hvalid
    · intro _; exact ⟨.invalidField, rfl⟩

lemma matchesDict_iff (a : Atom) (sd : SelecDict) :
    matchesDict a sd = true ↔ ∀ p ∈ sd, matchesField a p.1 p.2 = true := by
  unfold matchesDict
  rw [List.all_eq_true]

/-- C3: `select` keeps exactly the atoms satisfying every field predicate
(logical AND), as a subsequence of the source order, and is idempotent. -/
theorem select_exact_order_idempotent (t : Table) (sd : SelecDict) (t' : Table)
    (h : selectPartDict t sd = .ok t') :
    (∀ a : Atom, a ∈ t'.atoms ↔
      (a ∈ t.atoms ∧ ∀ p ∈ sd, matchesField a p.1 p.2 = true)) ∧
    t'.atoms.Sublist t.atoms ∧
    selectPartDict t' sd = .ok t' := by
  rw [selectPartDict_ok_iff] at h
  obtain ⟨hvalid, rfl⟩ := h
  refine ⟨?_, ?_, ?_⟩
  · intro a
    simp only [List.mem_filter, matchesDict_iff]
  · exact List.filter_sublist t.atoms
  · rw [selectPartDict_ok_iff]
    refine ⟨hvalid, ?_⟩
    congr 1
    rw [List.filter_filter]
    apply List.filter_congr
    intro a _
    exact (Bool.and_self _).symm

/-- Witness for C3 on a concrete two-atom table and one-field selector. -/
theorem select_exact_order_idempotent_witness :
    (∀ a : Atom,
      a ∈ (Table.mk [RawAtom.toAtom ⟨"CA", "", "ALA", "A", 1, "", ![0, 0, 0], 1, 0⟩ 0 0]).atoms ↔
        (a ∈ (Table.mk
            [RawAtom.toAtom ⟨"CA", "", "ALA", "A", 1, "", ![0, 0, 0], 1, 0⟩ 0 0,
             RawAtom.toAtom ⟨"CB", "", "GLY", "B", 2, "", ![1, 0, 0], 1, 0⟩ 1 1]).atoms ∧
          ∀ p ∈ ([("chain", Criterion.mem [FieldVal.s "A"])] : SelecDict),
            matchesField a p.1 p.2 = true)) ∧
    (Table.mk [RawAtom.toAtom ⟨"CA", "", "ALA", "A", 1, "", ![0, 0, 0], 1, 0⟩ 0 0]).atoms.Sublist
      (Table.mk
        [RawAtom.toAtom ⟨"CA", "", "ALA", "A", 1, "", ![0, 0, 0], 1, 0⟩ 0 0,
         RawAtom.toAtom ⟨"CB", "", "GLY", "B", 2, "", ![1, 0, 0], 1, 0⟩ 1 1]).atoms ∧
    selectPartDict
      (Table.mk [RawAtom.toAtom ⟨"CA", "", "ALA", "A", 1, "", ![0, 0, 0], 1, 0⟩ 0 0])
      [("chain", Criterion.mem [FieldVal.s "A"])] =
      .ok (Table.mk [RawAtom.toAtom ⟨"CA", "", "ALA", "A", 1, "", ![0, 0, 0], 1, 0⟩ 0 0]) :=
  select_exact_order_idempotent
    (Table.mk
      [RawAtom.toAtom ⟨"CA", "", "ALA", "A", 1, "", ![0, 0, 0], 1, 0⟩ 0 0,
       RawAtom.toAtom ⟨"CB", "", "GLY", "B", 2, "", ![1, 0, 0], 1, 0⟩ 1 1])
    [("chain", Criterion.mem [FieldVal.s "A"])]
    (Table.mk [RawAtom.toAtom ⟨"CA", "", "ALA", "A", 1, "", ![0, 0, 0], 1, 0⟩ 0 0])
    (by decide)

lemma validDict_iff (sd : SelecDict) :
    sd.all (fun p => schemaFields.contains p.1) = true ↔
      ∀ p ∈ sd, p.1 ∈ schemaFields := by
  rw [List.all_eq_true]
  constructor
  · intro h p hp
    exact List.mem_of_elem_eq_true (h p hp)
  · intro h p hp
    exact List.elem_eq_true_of_mem (h p hp)

/-- C6: `select` fails (with the invalid-field error) exactly when some
predicate names a field outside the schema; with valid fields and no
matching atom it returns the empty table, a regular value. -/
theorem select_invalid_field_and_empty (t : Table) (sd : SelecDict) :
    ((∃ e, selectPartDict t sd = .error e) ↔ ∃ p ∈ sd, p.1 ∉ schemaFields) ∧
    (∀ e, selectPartDict t sd = .error e → e = .invalidField) ∧
    ((∀ p ∈ sd, p.1 ∈ schemaFields) →
      (∀ a ∈ t.atoms, matchesDict a sd = false) →
      selectPartDict t sd = .ok ⟨[]⟩) := by
  refine ⟨?_, ?_, ?_⟩
  · rw [selectPartDict_error_iff, validDict_iff]
    push_neg
    constructor
    · rintro ⟨p, hp, hmem⟩; exact ⟨p, hp, hmem⟩
    · rintro ⟨p, hp, hmem⟩; exact ⟨p, hp, hmem⟩
  · intro e he
    unfold selectPartDict at he
    split at he
    · exact Except.noConfusion he
    · cases he; rfl
  · intro hvalid hnone
    rw [selectPartDict_ok_iff]
    refine ⟨(validDict_iff sd).mpr hvalid, ?_⟩
    congr 1
    rw [eq_comm, List.filter_eq_nil_iff]
    intro a ha
    rw [hnone a ha]
    exact Bool.false_ne_true

/-- Witness for C6: a valid one-field selector matching no atom of a
concrete one-atom table yields the empty table. -/
theorem select_invalid_field_and_empty_witness :
    selectPartDict
        (Table.mk [RawAtom.toAtom ⟨"CA", "", "ALA", "A", 1, "", ![0, 0, 0], 1, 0⟩ 0 0])
        [("chain", Criterion.mem [FieldVal.s "B"])] = .ok ⟨[]⟩ :=
  (select_invalid_field_and_empty
      (Table.mk [RawAtom.toAtom ⟨"CA", "", "ALA", "A", 1, "", ![0, 0, 0], 1, 0⟩ 0 0])
      [("chain", Criterion.mem [FieldVal.s "B"])]).2.2
    (by decide) (by decide)

/-- C10: a one-field selection succeeds exactly when the field name is
one of the ten documented names — identity and metadata fields plus
coordinates, occupancy and temperature factor. -/
theorem select_part_dict_ten_fields (t : Table) (f : String) (c : Criterion) :
    ((∃ t', selectPartDict t [(f, c)] = .ok t') ↔
      f ∈ ["name", "alter_loc", "res_name", "chain", "res_num",
           "uniq_resid", "insert_res", "xyz", "occ", "beta"]) ∧
    schemaFields = ["name", "alter_loc", "res_name", "chain", "res_num",
      "uniq_resid", "insert_res", "xyz", "occ", "beta"] := by
  constructor
  · unfold selectPartDict
    split
    · next hvalid =>
      constructor
      · intro _
        rw [validDict_iff] at hvalid
        exact hvalid (f, c) (by simp)
      · intro _
        exact ⟨_, rfl⟩
    · next hvalid =>
      constructor
      · rintro ⟨t', ht⟩
        exact Except.noConfusion ht
      · intro hmem
        exfalso
        apply hvalid
        rw [validDict_iff]
        rintro p hp
        rw [List.mem_singleton] at hp
        subst hp
        exact hmem
  · rfl

/-! ## Geometric transforms: lemmas -/

lemma posmap_inverse (l : List Atom) (f g : V3q → V3q) (h : ∀ p, g (f p) = p) :
    (l.map fun a => { a with pos := f a.pos }).map (fun a => { a with pos := g a.pos }) = l := by
  induction l with
  | nil => rfl
  | cons a l ih =>
    simp only [List.map_cons]
    rw [ih]
    congr 1
    show ({ a with pos := g (f a.pos) } : Atom) = a
    rw [h]

/-- C8: `translate` and `rotate` act on every atom by the spec's formula
`position' = matrix·(position − pivot) + pivot + vector`, uniformly and
with no filtering; translating back by the negated vector, and rotating
back by the transpose of a proper rotation, restore the table. -/
theorem transform_formula_roundtrip (t : Table) (m : Mat3q) (pivot v : V3q) :
    (translate t v).atoms =
      t.atoms.map (fun a => { a with pos := specTransformPos 1 0 v a.pos }) ∧
    (rotate t m pivot).atoms =
      t.atoms.map (fun a => { a with pos := specTransformPos m pivot 0 a.pos }) ∧
    translate (translate t v) (-v) = t ∧
    (m.transpose * m = 1 → rotate (rotate t m pivot) m.transpose pivot = t) := by
  refine ⟨?_, ?_, ?_, ?_⟩
  · show t.atoms.map (fun a => ({ a with pos := a.pos + v } : Atom)) = _
    apply List.map_congr_left
    intro a _
    show ({ a with pos := a.pos + v } : Atom) = { a with pos := specTransformPos 1 0 v a.pos }
    unfold specTransformPos
    rw [Matrix.one_mulVec, sub_zero, add_zero]
  · show t.atoms.map (fun a => ({ a with pos := m.mulVec (a.pos - pivot) + pivot } : Atom)) = _
    apply List.map_congr_left
    intro a _
    show ({ a with pos := m.mulVec (a.pos - pivot) + pivot } : Atom) =
      { a with pos := specTransformPos m pivot 0 a.pos }
    unfold specTransformPos
    rw [add_zero]
  · show Table.mk
        ((t.atoms.map fun a => ({ a with pos := a.pos + v } : Atom)).map
          fun a => ({ a with pos := a.pos + -v } : Atom)) = Table.mk t.atoms
    exact congrArg Table.mk
      (posmap_inverse t.atoms (fun p => p + v) (fun p => p + -v)
        (fun p => add_neg_cancel_right p v))
  · intro horth
    show Table.mk
        ((t.atoms.map fun a => ({ a with pos := m.mulVec (a.pos - pivot) + pivot } : Atom)).map
          fun a => ({ a with pos := m.transpose.mulVec (a.pos - pivot) + pivot } : Atom)) =
      Table.mk t.atoms
    apply congrArg Table.mk
    apply posmap_inverse t.atoms
      (fun p => m.mulVec (p - pivot) + pivot)
      (fun p => m.transpose.mulVec (p - pivot) + pivot)
    intro p
    rw [add_sub_cancel_right, Matrix.mulVec_mulVec, horth, Matrix.one_mulVec,
      sub_add_cancel]

/-- Witness for C8's conditional part: rotating by a concrete proper
rotation (z-axis quarter turn) and then by its transpose restores a
concrete one-atom table. -/
theorem transform_formula_roundtrip_witness :
    rotate
      (rotate (Table.mk [RawAtom.toAtom ⟨"CA", "", "ALA", "A", 1, "", ![1, 2, 3], 1, 0⟩ 0 0])
        !![0, -1, 0; 1, 0, 0; 0, 0, 1] ![0, 0, 0])
      (!![0, -1, 0; 1, 0, 0; 0, 0, 1] : Mat3q).transpose ![0, 0, 0] =
    Table.mk [RawAtom.toAtom ⟨"CA", "", "ALA", "A", 1, "", ![1, 2, 3], 1, 0⟩ 0 0] :=
  (transform_formula_roundtrip
    (Table.mk [RawAtom.toAtom ⟨"CA", "", "ALA", "A", 1, "", ![1, 2, 3], 1, 0⟩ 0 0])
    !![0, -1, 0; 1, 0, 0; 0, 0, 1] ![0, 0, 0] ![0, 0, 0]).2.2.2
    (by
      have ht : (!![0, -1, 0; 1, 0, 0; 0, 0, 1] : Mat3q).transpose =
          !![0, 1, 0; -1, 0, 0; 0, 0, 1] := by
        ext i j
        fin_cases i <;> fin_cases j <;> rfl
      rw [ht]
      ext i j
      fin_cases i <;> fin_cases j <;>
        simp [Matrix.mul_apply, Fin.sum_univ_three, Matrix.one_apply,
          Matrix.vecHead, Matrix.vecTail])

/-- C7: selection yields an independent table whose atom records — index
values included — are taken verbatim from the source, in order, without
renumbering; and mutating one table of a store (e.g. translating or
rotating the derived table) leaves every other table of the store
untouched. -/
theorem selection_independent_copy (t : Table) (sd : SelecDict) (t' : Table)
    (h : selectPartDict t sd = .ok t') :
    (∀ a ∈ t'.atoms, a ∈ t.atoms) ∧
    (t'.atoms.map Atom.num).Sublist (t.atoms.map Atom.num) ∧
    (∀ (w : Nat → Table) (i j : Nat) (f : Table → Table),
      i ≠ j → worldApply w j f i = w i) := by
  rw [selectPartDict_ok_iff] at h
  obtain ⟨-, rfl⟩ := h
  refine ⟨?_, ?_, ?_⟩
  · intro a ha
    exact (List.mem_filter.mp ha).1
  · exact (List.filter_sublist t.atoms).map Atom.num
  · intro w i j f hij
    unfold worldApply
    rw [if_neg hij]

/-- Witness for C7: a concrete selection from a two-atom table, and a
concrete store where translating the table in slot 1 leaves slot 0
unchanged. -/
theorem selection_independent_copy_witness :
    (∀ a ∈ (Table.mk [RawAtom.toAtom ⟨"CA", "", "ALA", "A", 1, "", ![0, 0, 0], 1, 0⟩ 0 0]).atoms,
      a ∈ (Table.mk
        [RawAtom.toAtom ⟨"CA", "", "ALA", "A", 1, "", ![0, 0, 0], 1, 0⟩ 0 0,
         RawAtom.toAtom ⟨"CB", "", "GLY", "B", 2, "", ![1, 0, 0], 1, 0⟩ 1 1]).atoms) ∧
    ((Table.mk [RawAtom.toAtom ⟨"CA", "", "ALA", "A", 1, "", ![0, 0, 0], 1, 0⟩ 0 0]).atoms.map
        Atom.num).Sublist
      ((Table.mk
        [RawAtom.toAtom ⟨"CA", "", "ALA", "A", 1, "", ![0, 0, 0], 1, 0⟩ 0 0,
         RawAtom.toAtom ⟨"CB", "", "GLY", "B", 2, "", ![1, 0, 0], 1, 0⟩ 1 1]).atoms.map
          Atom.num) ∧
    (∀ (w : Nat → Table) (i j : Nat) (f : Table → Table),
      i ≠ j → worldApply w j f i = w i) :=
  selection_independent_copy
    (Table.mk
      [RawAtom.toAtom ⟨"CA", "", "ALA", "A", 1, "", ![0, 0, 0], 1, 0⟩ 0 0,
       RawAtom.toAtom ⟨"CB", "", "GLY", "B", 2, "", ![1, 0, 0], 1, 0⟩ 1 1])
    [("chain", Criterion.mem [FieldVal.s "A"])]
    (Table.mk [RawAtom.toAtom ⟨"CA", "", "ALA", "A", 1, "", ![0, 0, 0], 1, 0⟩ 0 0])
    (by decide)

/-! ## Unique residue ids: infrastructure -/

/-- The set of distinct residue tuples seen after processing a record
stream, in first-seen order, starting from accumulator `seen`. -/
def seenFinal (seen : List ResTuple) : List ResTuple → List ResTuple
  | [] => seen
  | t :: ts => seenFinal (if t ∈ seen then seen else seen ++ [t]) ts

/-- Adjacent-pair relation of the residue-id invariant, on (tuple, id)
pairs: ids never decrease, and increase exactly at residue boundaries. -/
def uniqRelP (p q : ResTuple × Nat) : Prop :=
  p.2 ≤ q.2 ∧ (p.2 < q.2 ↔ q.1 ≠ p.1)

/-- Adjacent-pair relation of the residue-id invariant, on atom records. -/
def uniqRel (a b : Atom) : Prop :=
  a.uniq_resid ≤ b.uniq_resid ∧
    (a.uniq_resid < b.uniq_resid ↔ b.resTuple ≠ a.resTuple)

lemma idxIn_lt_length {t : ResTuple} {s : List ResTuple} (h : t ∈ s) :
    idxIn t s < s.length := by
  induction s with
  | nil => cases h
  | cons y ys ih =>
    unfold idxIn
    by_cases hy : y = t
    · rw [if_pos hy]
      exact Nat.succ_pos _
    · rw [if_neg hy]
      have : t ∈ ys := by
        rcases List.mem_cons.mp h with h' | h'
        · exact absurd h'.symm hy
        · exact h'
      exact Nat.succ_lt_succ (ih this)

lemma idxIn_append_of_mem {t : ResTuple} {s : List ResTuple} (s' : List ResTuple)
    (h : t ∈ s) : idxIn t (s ++ s') = idxIn t s := by
  induction s with
  | nil => cases h
  | cons y ys ih =>
    rw [List.cons_append]
    unfold idxIn
    by_cases hy : y = t
    · rw [if_pos hy, if_pos hy]
    · rw [if_neg hy, if_neg hy]
      have : t ∈ ys := by
        rcases List.mem_cons.mp h with h' | h'
        · exact absurd h'.symm hy
        · exact h'
      rw [ih this]

lemma idxIn_append_self {t : ResTuple} {s : List ResTuple} (s' : List ResTuple)
    (h : t ∉ s) : idxIn t (s ++ t :: s') = s.length := by
  induction s with
  | nil => simp [idxIn]
  | cons y ys ih =>
    rw [List.cons_append]
    unfold idxIn
    have hy : ¬ y = t := fun he => h (he ▸ List.mem_cons_self y ys)
    rw [if_neg hy, ih (fun hm => h (List.mem_cons_of_mem y hm))]
    rfl

lemma idxIn_inj {t t' : ResTuple} {s : List ResTuple} (ht : t ∈ s) (ht' : t' ∈ s)
    (h : idxIn t s = idxIn t' s) : t = t' := by
  induction s with
  | nil => cases ht
  | cons y ys ih =>
    unfold idxIn at h
    by_cases hy : y = t
    · by_cases hy' : y = t'
      · rw [← hy, hy']
      · rw [if_pos hy, if_neg hy'] at h
        exact absurd h.symm (Nat.succ_ne_zero _)
    · by_cases hy' : y = t'
      · rw [if_neg hy, if_pos hy'] at h
        exact absurd h (Nat.succ_ne_zero _)
      · rw [if_neg hy, if_neg hy'] at h
        have hts : t ∈ ys := by
          rcases List.mem_cons.mp ht with h' | h'
          · exact absurd h'.symm hy
          · exact h'
        have hts' : t' ∈ ys := by
          rcases List.mem_cons.mp ht' with h' | h'
          · exact absurd h'.symm hy'
          · exact h'
        exact ih hts hts' (Nat.succ_injective h)

lemma idxIn_getLast {s : List ResTuple} {t : ResTuple} (hnd : s.Nodup)
    (h : s.getLast? = some t) : idxIn t s = s.length - 1 := by
  induction s with
  | nil => cases h
  | cons y ys ih =>
    cases ys with
    | nil =>
      have : y = t := by
        simpa [List.getLast?] using h
      simp [idxIn, this]
    | cons z zs =>
      rw [List.getLast?_cons_cons] at h
      have hmem : t ∈ z :: zs := List.mem_of_mem_getLast? h
      have hy : ¬ y = t := by
        intro he
        exact (List.nodup_cons.mp hnd).1 (he ▸ hmem)
      unfold idxIn
      rw [if_neg hy, ih (List.nodup_cons.mp hnd).2 h]
      simp

lemma seenFinal_append (l : List ResTuple) :
    ∀ seen, ∃ suf, seenFinal seen l = seen ++ suf := by
  induction l with
  | nil => exact fun seen => ⟨[], (List.append_nil seen).symm⟩
  | cons t ts ih =>
    intro seen
    by_cases ht : t ∈ seen
    · obtain ⟨suf, hsuf⟩ := ih seen
      exact ⟨suf, by rw [seenFinal, if_pos ht]; exact hsuf⟩
    · obtain ⟨suf, hsuf⟩ := ih (seen ++ [t])
      refine ⟨t :: suf, ?_⟩
      rw [seenFinal, if_neg ht, hsuf, List.append_assoc]
      rfl

lemma mem_seenFinal (l : List ResTuple) :
    ∀ seen t, t ∈ l → t ∈ seenFinal seen l := by
  induction l with
  | nil => intro _ _ h; cases h
  | cons u us ih =>
    intro seen t ht
    rw [seenFinal]
    rcases List.mem_cons.mp ht with h' | h'
    · subst h'
      by_cases hu : t ∈ seen
      · rw [if_pos hu]
        obtain ⟨suf, hsuf⟩ := seenFinal_append us seen
        rw [hsuf]
        exact List.mem_append_left _ hu
      · rw [if_neg hu]
        obtain ⟨suf, hsuf⟩ := seenFinal_append us (seen ++ [t])
        rw [hsuf]
        exact List.mem_append_left _ (List.mem_append_right _ (List.mem_singleton_self t))
    · by_cases hu : u ∈ seen
      · rw [if_pos hu]; exact ih seen t h'
      · rw [if_neg hu]; exact ih (seen ++ [u]) t h'

lemma assignUniq_length (l : List ResTuple) :
    ∀ seen, (assignUniq seen l).length = l.length := by
  induction l with
  | nil => intro _; rfl
  | cons t ts ih =>
    intro seen
    rw [assignUniq]
    by_cases ht : t ∈ seen
    · rw [if_pos ht, List.length_cons, ih]
      rfl
    · rw [if_neg ht, List.length_cons, ih]
      rfl

lemma groupedFrom_cons_mem {seen : List ResTuple} {t : ResTuple} {ts : List ResTuple}
    (ht : t ∈ seen) (hg : groupedFrom seen (t :: ts) = true) :
    seen.getLast? = some t ∧ groupedFrom seen ts = true := by
  rw [groupedFrom, if_pos ht, Bool.and_eq_true, decide_eq_true_iff] at hg
  exact hg

lemma groupedFrom_cons_not_mem {seen : List ResTuple} {t : ResTuple} {ts : List ResTuple}
    (ht : t ∉ seen) (hg : groupedFrom seen (t :: ts) = true) :
    groupedFrom (seen ++ [t]) ts = true := by
  rwa [groupedFrom, if_neg ht] at hg

/-- Every id emitted by `assignUniq` is the first-seen rank of its
residue tuple in the final seen list. -/
lemma assignUniq_idx (l : List ResTuple) :
    ∀ (seen : List ResTuple) (t : ResTuple) (x : Nat),
      (t, x) ∈ l.zip (assignUniq seen l) → x = idxIn t (seenFinal seen l) := by
  induction l with
  | nil => intro _ _ _ h; cases h
  | cons u us ih =>
    intro seen t x hmem
    by_cases hu : u ∈ seen
    · rw [assignUniq, if_pos hu, List.zip_cons_cons] at hmem
      rw [seenFinal, if_pos hu]
      rcases List.mem_cons.mp hmem with h' | h'
      · rw [Prod.mk.injEq] at h'
        obtain ⟨h1, h2⟩ := h'
        subst h1
        subst h2
        obtain ⟨suf, hsuf⟩ := seenFinal_append us seen
        rw [hsuf, idxIn_append_of_mem suf hu]
      · exact ih seen t x h'
    · rw [assignUniq, if_neg hu, List.zip_cons_cons] at hmem
      rw [seenFinal, if_neg hu]
      rcases List.mem_cons.mp hmem with h' | h'
      · rw [Prod.mk.injEq] at h'
        obtain ⟨h1, h2⟩ := h'
        subst h1
        subst h2
        obtain ⟨suf, hsuf⟩ := seenFinal_append us (seen ++ [t])
        rw [hsuf, List.append_assoc]
        exact (idxIn_append_self suf hu).symm
      · exact ih (seen ++ [u]) t x h'

/-- Master lemma: on a grouped record stream, consecutive (tuple, id)
pairs emitted by `assignUniq` satisfy the residue-id invariant. -/
lemma assignUniq_chain (l : List ResTuple) :
    ∀ (seen : List ResTuple), groupedFrom seen l = true → seen.Nodup →
      List.Chain' uniqRelP (l.zip (assignUniq seen l)) := by
  induction l with
  | nil => intro _ _ _; simp
  | cons t ts ih =>
    intro seen hg hnd
    by_cases ht : t ∈ seen
    · obtain ⟨hlast, hg'⟩ := groupedFrom_cons_mem ht hg
      rw [assignUniq, if_pos ht, List.zip_cons_cons]
      rw [List.chain'_cons']
      refine ⟨?_, ih seen hg' hnd⟩
      intro b hb
      cases ts with
      | nil => simp at hb
      | cons u us =>
        by_cases hu : u ∈ seen
        · rw [assignUniq, if_pos hu, List.zip_cons_cons] at hb
          simp only [List.head?_cons, Option.mem_def, Option.some.injEq] at hb
          subst hb
          obtain ⟨hlast', -⟩ := groupedFrom_cons_mem hu hg'
          have htu : t = u := Option.some.inj (hlast.symm.trans hlast')
          subst htu
          exact ⟨le_refl _, by
            constructor
            · intro hlt; exact absurd hlt (lt_irrefl _)
            · intro hne; exact absurd rfl hne⟩
        · rw [assignUniq, if_neg hu, List.zip_cons_cons] at hb
          simp only [List.head?_cons, Option.mem_def, Option.some.injEq] at hb
          subst hb
          refine ⟨le_of_lt (idxIn_lt_length ht), ?_⟩
          constructor
          · intro _
            intro hut
            have h2 : u = t := hut
            exact hu (by rw [h2]; exact ht)
          · intro _
            exact idxIn_lt_length ht
    · have hg' := groupedFrom_cons_not_mem ht hg
      have hnd' : (seen ++ [t]).Nodup := by
        rw [List.nodup_append]
        exact ⟨hnd, List.nodup_singleton t, by
          intro a ha hmem
          rw [List.mem_singleton] at hmem
          exact ht (hmem ▸ ha)⟩
      rw [assignUniq, if_neg ht, List.zip_cons_cons]
      rw [List.chain'_cons']
      refine ⟨?_, ih (seen ++ [t]) hg' hnd'⟩
      intro b hb
      cases ts with
      | nil => simp at hb
      | cons u us =>
        by_cases hu : u ∈ seen ++ [t]
        · rw [assignUniq, if_pos hu, List.zip_cons_cons] at hb
          simp only [List.head?_cons, Option.mem_def, Option.some.injEq] at hb
          subst hb
          obtain ⟨hlast', -⟩ := groupedFrom_cons_mem hu hg'
          have htu : t = u :=
            Option.some.inj ((List.getLast?_concat seen).symm.trans hlast')
          subst htu
          have hidx : idxIn t (seen ++ [t]) = seen.length := idxIn_append_self [] ht
          rw [hidx]
          exact ⟨le_refl _, by
            constructor
            · intro hlt; exact absurd hlt (lt_irrefl _)
            · intro hne; exact absurd rfl hne⟩
        · rw [assignUniq, if_neg hu, List.zip_cons_cons] at hb
          simp only [List.head?_cons, Option.mem_def, Option.some.injEq] at hb
          subst hb
          have hlen : (seen ++ [t]).length = seen.length + 1 := by simp
          rw [hlen]
          refine ⟨Nat.le_succ _, ?_⟩
          constructor
          · intro _
            intro hut
            have h2 : u = t := hut
            exact hu (by
              rw [h2]
              exact List.mem_append_right seen (List.mem_singleton_self t))
          · intro _
            exact Nat.lt_succ_self _

lemma zipWith_toAtom_pairs (raws : List RawAtom) :
    ∀ (ns ids : List Nat), ns.length = raws.length → ids.length = raws.length →
      ((List.zipWith (fun (r : RawAtom) (p : Nat × Nat) => r.toAtom p.1 p.2)
          raws (ns.zip ids)).map (fun a => (a.resTuple, a.uniq_resid))) =
        (raws.map RawAtom.resTuple).zip ids := by
  induction raws with
  | nil =>
    intro ns ids _ hi
    rw [List.length_nil, List.length_eq_zero] at hi
    subst hi
    rfl
  | cons r rs ih =>
    intro ns ids hn hi
    cases ns with
    | nil => simp at hn
    | cons n ns' =>
      cases ids with
      | nil => simp at hi
      | cons x ids' =>
        rw [List.zip_cons_cons, List.zipWith_cons_cons, List.map_cons, List.map_cons,
          List.zip_cons_cons]
        rw [ih ns' ids' (Nat.succ_injective hn) (Nat.succ_injective hi)]
        rfl

lemma mkTable_pairs (raws : List RawAtom) :
    (mkTable raws).atoms.map (fun a => (a.resTuple, a.uniq_resid)) =
      (raws.map RawAtom.resTuple).zip
        (assignUniq [] (raws.map RawAtom.resTuple)) := by
  unfold mkTable
  exact zipWith_toAtom_pairs raws _ _ (List.length_range _)
    (by rw [assignUniq_length, List.length_map])

lemma mkTable_ids (raws : List RawAtom) :
    (mkTable raws).atoms.map Atom.uniq_resid =
      assignUniq [] (raws.map RawAtom.resTuple) := by
  have h := congrArg (List.map Prod.snd) (mkTable_pairs raws)
  rw [List.map_map] at h
  rw [List.map_snd_zip] at h
  · exact h
  · rw [assignUniq_length, List.length_map]

/-- C9 (amended): on record streams whose equal residue tuples are
contiguous, parsing assigns zero-based unique residue ids that never
decrease and strictly increase exactly at residue boundaries; two atoms
carry the same id exactly when they belong to the same residue tuple;
and the invariant survives selection, translation and rotation. -/
theorem uniq_resid_invariant (raws : List RawAtom)
    (hg : Grouped (raws.map RawAtom.resTuple)) :
    List.Chain' uniqRel (mkTable raws).atoms ∧
    (∀ a ∈ (mkTable raws).atoms, ∀ b ∈ (mkTable raws).atoms,
      (a.uniq_resid = b.uniq_resid ↔ a.resTuple = b.resTuple)) ∧
    (∀ r rest, raws = r :: rest →
      ((mkTable raws).atoms.map Atom.uniq_resid).head? = some 0) ∧
    (∀ sd t', selectPartDict (mkTable raws) sd = .ok t' →
      List.Chain' uniqRel t'.atoms ∧
      (∀ a ∈ t'.atoms, ∀ b ∈ t'.atoms,
        (a.uniq_resid = b.uniq_resid ↔ a.resTuple = b.resTuple))) ∧
    (∀ v, (translate (mkTable raws) v).atoms.map (fun a => (a.resTuple, a.uniq_resid)) =
      (mkTable raws).atoms.map (fun a => (a.resTuple, a.uniq_resid))) ∧
    (∀ m pivot,
      (rotate (mkTable raws) m pivot).atoms.map (fun a => (a.resTuple, a.uniq_resid)) =
        (mkTable raws).atoms.map (fun a => (a.resTuple, a.uniq_resid))) := by
  have hpairs := mkTable_pairs raws
  have hchainP : List.Chain' uniqRelP
      ((raws.map RawAtom.resTuple).zip (assignUniq [] (raws.map RawAtom.resTuple))) :=
    assignUniq_chain _ [] hg List.nodup_nil
  have hF1 : List.Chain' uniqRel (mkTable raws).atoms := by
    rw [← hpairs, List.chain'_map] at hchainP
    exact hchainP
  have hchar : ∀ a ∈ (mkTable raws).atoms,
      a.uniq_resid = idxIn a.resTuple (seenFinal [] (raws.map RawAtom.resTuple)) ∧
      a.resTuple ∈ seenFinal [] (raws.map RawAtom.resTuple) := by
    intro a ha
    have hmem : (a.resTuple, a.uniq_resid) ∈
        (raws.map RawAtom.resTuple).zip (assignUniq [] (raws.map RawAtom.resTuple)) := by
      rw [← hpairs]
      exact List.mem_map_of_mem _ ha
    refine ⟨assignUniq_idx _ [] _ _ hmem, ?_⟩
    exact mem_seenFinal _ [] _ (List.of_mem_zip hmem).1
  have hF2 : ∀ a ∈ (mkTable raws).atoms, ∀ b ∈ (mkTable raws).atoms,
      (a.uniq_resid = b.uniq_resid ↔ a.resTuple = b.resTuple) := by
    intro a ha b hb
    obtain ⟨hai, ham⟩ := hchar a ha
    obtain ⟨hbi, hbm⟩ := hchar b hb
    constructor
    · intro he
      exact idxIn_inj ham hbm (by rw [← hai, ← hbi, he])
    · intro he
      rw [hai, hbi, he]
  refine ⟨hF1, hF2, ?_, ?_, ?_, ?_⟩
  · intro r rest hre
    subst hre
    rw [mkTable_ids]
    rw [List.map_cons, assignUniq, if_neg (List.not_mem_nil _)]
    rfl
  · intro sd t' hsel
    rw [selectPartDict_ok_iff] at hsel
    obtain ⟨-, rfl⟩ := hsel
    have hsub : List.Sublist (List.filter (fun a => matchesDict a sd) (mkTable raws).atoms)
        (mkTable raws).atoms := List.filter_sublist _
    have hmemsub : ∀ a ∈ (List.filter (fun a => matchesDict a sd) (mkTable raws).atoms),
        a ∈ (mkTable raws).atoms := fun a ha => hsub.subset ha
    have hF2' : ∀ a ∈ (List.filter (fun a => matchesDict a sd) (mkTable raws).atoms),
        ∀ b ∈ (List.filter (fun a => matchesDict a sd) (mkTable raws).atoms),
        (a.uniq_resid = b.uniq_resid ↔ a.resTuple = b.resTuple) :=
      fun a ha b hb => hF2 a (hmemsub a ha) b (hmemsub b hb)
    haveI : IsTrans Atom (fun a b : Atom => a.uniq_resid ≤ b.uniq_resid) :=
      ⟨fun _ _ _ hab hbc => le_trans hab hbc⟩
    have hle : List.Chain' (fun a b : Atom => a.uniq_resid ≤ b.uniq_resid)
        (mkTable raws).atoms := List.Chain'.imp (fun _ _ h => h.1) hF1
    have hple := (List.chain'_iff_pairwise.mp hle).sublist hsub
    have hpR : List.Pairwise uniqRel
        (List.filter (fun a => matchesDict a sd) (mkTable raws).atoms) := by
      refine List.Pairwise.imp_of_mem ?_ hple
      intro a b ha hb hab
      refine ⟨hab, ?_, ?_⟩
      · intro hlt hteq
        exact absurd ((hF2' a ha b hb).mpr hteq.symm) (Nat.ne_of_lt hlt)
      · intro hne
        refine lt_of_le_of_ne hab ?_
        intro he
        exact hne (((hF2' a ha b hb).mp he).symm)
    exact ⟨hpR.chain', hF2'⟩
  · intro v
    show ((mkTable raws).atoms.map fun a => ({ a with pos := a.pos + v } : Atom)).map
        (fun a => (a.resTuple, a.uniq_resid)) = _
    rw [List.map_map]
    apply List.map_congr_left
    intro a _
    rfl
  · intro m pivot
    show ((mkTable raws).atoms.map
        fun a => ({ a with pos := m.mulVec (a.pos - pivot) + pivot } : Atom)).map
          (fun a => (a.resTuple, a.uniq_resid)) = _
    rw [List.map_map]
    apply List.map_congr_left
    intro a _
    rfl

/-- Witness for C9's amended theorem, at a concrete grouped three-atom,
two-residue stream. -/
theorem uniq_resid_invariant_witness :
    List.Chain' uniqRel (mkTable
      [⟨"N", "", "ALA", "A", 1, "", ![0, 0, 0], 1, 0⟩,
       ⟨"CA", "", "ALA", "A", 1, "", ![0, 0, 0], 1, 0⟩,
       ⟨"N", "", "GLY", "A", 2, "", ![0, 0, 0], 1, 0⟩]).atoms :=
  (uniq_resid_invariant
    [⟨"N", "", "ALA", "A", 1, "", ![0, 0, 0], 1, 0⟩,
     ⟨"CA", "", "ALA", "A", 1, "", ![0, 0, 0], 1, 0⟩,
     ⟨"N", "", "GLY", "A", 2, "", ![0, 0, 0], 1, 0⟩]
    (by decide)).1

/-- Counterexample to C9 as stated: with first-seen id assignment, a
parsed record stream whose residue tuple reappears after an intervening
residue yields ids 0, 1, 0 — not monotonically non-decreasing. -/
theorem uniq_resid_counterexample :
    ¬ List.Chain' (fun a b : Atom => a.uniq_resid ≤ b.uniq_resid)
      (mkTable
        [⟨"N", "", "ALA", "A", 1, "", ![0, 0, 0], 1, 0⟩,
         ⟨"N", "", "GLY", "A", 2, "", ![0, 0, 0], 1, 0⟩,
         ⟨"C", "", "ALA", "A", 1, "", ![0, 0, 0], 1, 0⟩]).atoms := by
  have hids : (mkTable
      [⟨"N", "", "ALA", "A", 1, "", ![0, 0, 0], 1, 0⟩,
       ⟨"N", "", "GLY", "A", 2, "", ![0, 0, 0], 1, 0⟩,
       ⟨"C", "", "ALA", "A", 1, "", ![0, 0, 0], 1, 0⟩]).atoms.map Atom.uniq_resid =
      [0, 1, 0] := by decide
  intro h
  have h2 : List.Chain' (fun x y : Nat => x ≤ y) [0, 1, 0] := by
    rw [← hids, List.chain'_map]
    exact h
  rw [List.chain'_cons, List.chain'_cons] at h2
  exact absurd h2.2.1 (by decide)

/-! ## Real layer: coordinate sets, RMSD, Kabsch alignment -/

/-- Real 3-vector. -/
abbrev V3 := Fin 3 → ℝ

/-- Real 3×3 matrix. -/
abbrev Mat3 := Matrix (Fin 3) (Fin 3) ℝ

/-- Squared Euclidean norm. -/
def sqnorm (v : V3) : ℝ := Matrix.dotProduct v v

/-- Squared Euclidean distance. -/
def sqdist (p q : V3) : ℝ := sqnorm (p - q)

/-- Sum of squared distances between paired positions. -/
def ssd (ps qs : List V3) : ℝ := (List.zipWith sqdist ps qs).sum

/-- Modelled from the spec: `rmsd` (§4.3 contract of the absent
`pdb_manip.py`): square root of the mean squared distance between paired
positions. -/
noncomputable def rmsd (ps qs : List V3) : ℝ :=
  Real.sqrt (ssd ps qs / ps.length)

/-- Centroid of a coordinate set. -/
noncomputable def centroid (ps : List V3) : V3 := (ps.length : ℝ)⁻¹ • ps.sum

/-- The coordinate set translated so its centroid is the origin. -/
noncomputable def centered (ps : List V3) : List V3 := ps.map (· - centroid ps)

/-- Modelled from the spec: the 3×3 cross-covariance matrix of the two
centered coordinate sets (§4.2 step 2). -/
noncomputable def cov (ps qs : List V3) : Mat3 :=
  (List.zipWith Matrix.vecMulVec (centered ps) (centered qs)).sum

/-- Modelled from the spec: the sign of the reflection correction
(§4.2 step 4): −1 exactly when `det (V · Uᵀ)` is negative. -/
noncomputable def corrSign (U V : Mat3) : ℝ :=
  if (V * U.transpose).det < 0 then -1 else 1

/-- Reflection-correction matrix: right-multiplying `V` by it negates
the last column of `V` exactly when the correction sign is −1. -/
noncomputable def corrD (U V : Mat3) : Mat3 :=
  Matrix.diagonal ![1, 1, corrSign U V]

/-- Modelled from the spec: the Kabsch rotation `V' · Uᵀ` where `V'` is
`V` with its last column negated when `det (V · Uᵀ) < 0` (§4.2 steps
4–5). -/
noncomputable def kabschRot (U V : Mat3) : Mat3 := V * corrD U V * U.transpose

/-- Modelled from the spec: the translation recovered from the two
centroids and the rotation (§4.2 step 5). -/
noncomputable def kabschTrans (U V : Mat3) (ps qs : List V3) : V3 :=
  centroid qs - (kabschRot U V).mulVec (centroid ps)

/-- The SVD oracle's output: the external library's factors `U`, `S`,
`V` of the cross-covariance matrix. -/
structure SVD3 where
  U : Mat3
  S : Mat3
  V : Mat3

/-- What the external SVD routine guarantees about its output on `A`:
`U` and `V` orthogonal, `A = U·S·Vᵀ`, and `S` diagonal with
non-increasing non-negative singular values. -/
def SVD3.Valid (sv : SVD3) (A : Mat3) : Prop :=
  sv.U.transpose * sv.U = 1 ∧ sv.V.transpose * sv.V = 1 ∧
  A = sv.U * sv.S * sv.V.transpose ∧
  ∃ s1 s2 s3 : ℝ, sv.S = Matrix.diagonal ![s1, s2, s3] ∧
    s2 ≤ s1 ∧ s3 ≤ s2 ∧ 0 ≤ s3

/-- Result of `align`: rotation, translation and aligned mobile
positions. -/
structure AlignResult where
  rot : Mat3
  trans : V3
  aligned : List V3

/-- Modelled from the spec: `align(mobile, reference)` (§4.2 of the
absent `pdb_manip.py`), with the SVD of the cross-covariance supplied by
the oracle `sv`.  Fails with `shapeMismatch` exactly on differing atom
counts; otherwise total, even for fewer than 3 atoms or colinear
inputs. -/
noncomputable def alignCoords (sv : SVD3) (ps qs : List V3) :
    Except PdbError AlignResult :=
  if ps.length = qs.length then
    .ok ⟨kabschRot sv.U sv.V, kabschTrans sv.U sv.V ps qs,
         ps.map fun p => (kabschRot sv.U sv.V).mulVec p + kabschTrans sv.U sv.V ps qs⟩
  else .error .shapeMismatch

/-- Modelled from the spec: the RMSD entry point checks atom counts and
fails with `shapeMismatch` exactly on differing counts (§4.3, §7). -/
noncomputable def rmsdChecked (ps qs : List V3) : Except PdbError ℝ :=
  if ps.length = qs.length then .ok (rmsd ps qs) else .error .shapeMismatch

/-- C4: `align` and `rmsd` fail, with the shape-mismatch error, exactly
when the two coordinate sets have different atom counts; on every
equal-count input — including fewer than 3 atoms or colinear ones — a
result is returned, never an error. -/
theorem align_rmsd_shape_mismatch (sv : SVD3) (ps qs : List V3) :
    (alignCoords sv ps qs = .error .shapeMismatch ↔ ps.length ≠ qs.length) ∧
    ((∃ r, alignCoords sv ps qs = .ok r) ↔ ps.length = qs.length) ∧
    (rmsdChecked ps qs = .error .shapeMismatch ↔ ps.length ≠ qs.length) ∧
    ((∃ x, rmsdChecked ps qs = .ok x) ↔ ps.length = qs.length) := by
  unfold alignCoords rmsdChecked
  by_cases h : ps.length = qs.length
  · rw [if_pos h, if_pos h]
    refine ⟨⟨fun hc => Except.noConfusion hc, fun hc => absurd h hc⟩,
      ⟨fun _ => h, fun _ => ⟨_, rfl⟩⟩,
      ⟨fun hc => Except.noConfusion hc, fun hc => absurd h hc⟩,
      ⟨fun _ => h, fun _ => ⟨_, rfl⟩⟩⟩
  · rw [if_neg h, if_neg h]
    refine ⟨⟨fun _ => h, fun _ => rfl⟩,
      ⟨fun hc => ?_, fun hc => absurd hc h⟩,
      ⟨fun _ => h, fun _ => rfl⟩,
      ⟨fun hc => ?_, fun hc => absurd hc h⟩⟩
    · obtain ⟨r, hr⟩ := hc
      exact Except.noConfusion hr
    · obtain ⟨x, hx⟩ := hc
      exact Except.noConfusion hx

lemma sqdist_comm (p q : V3) : sqdist p q = sqdist q p := by
  unfold sqdist sqnorm Matrix.dotProduct
  apply Finset.sum_congr rfl
  intro i _
  simp only [Pi.sub_apply]
  ring

lemma sqdist_self (p : V3) : sqdist p p = 0 := by
  unfold sqdist sqnorm Matrix.dotProduct
  simp

lemma sqdist_nonneg (p q : V3) : 0 ≤ sqdist p q := by
  unfold sqdist sqnorm Matrix.dotProduct
  apply Finset.sum_nonneg
  intro i _
  exact mul_self_nonneg _

lemma ssd_nonneg (ps qs : List V3) : 0 ≤ ssd ps qs := by
  unfold ssd
  induction ps generalizing qs with
  | nil => simp
  | cons p ps ih =>
    cases qs with
    | nil => simp
    | cons q qs =>
      rw [List.zipWith_cons_cons, List.sum_cons]
      have := ih qs
      have := sqdist_nonneg p q
      linarith

lemma ssd_comm (ps qs : List V3) : ssd ps qs = ssd qs ps := by
  unfold ssd
  induction ps generalizing qs with
  | nil => cases qs <;> rfl
  | cons p ps ih =>
    cases qs with
    | nil => rfl
    | cons q qs =>
      rw [List.zipWith_cons_cons, List.zipWith_cons_cons, List.sum_cons,
        List.sum_cons, sqdist_comm, ih]

lemma ssd_self (ps : List V3) : ssd ps ps = 0 := by
  unfold ssd
  induction ps with
  | nil => rfl
  | cons p ps ih =>
    rw [List.zipWith_cons_cons, List.sum_cons, sqdist_self, ih, add_zero]

/-- C5: RMSD is the square root of the mean squared distance between
paired positions; it is non-negative, symmetric, and zero between a set
and itself. -/
theorem rmsd_formula_symm_self (ps qs : List V3) (hlen : ps.length = qs.length) :
    rmsd ps qs = Real.sqrt ((List.zipWith sqdist ps qs).sum / ps.length) ∧
    0 ≤ rmsd ps qs ∧
    rmsd ps qs = rmsd qs ps ∧
    rmsd ps ps = 0 := by
  refine ⟨rfl, Real.sqrt_nonneg _, ?_, ?_⟩
  · unfold rmsd
    rw [ssd_comm, hlen]
  · unfold rmsd
    rw [ssd_self, zero_div, Real.sqrt_zero]

/-- Witness for C5 at a concrete pair of one-point coordinate sets. -/
theorem rmsd_formula_symm_self_witness :
    rmsd [![1, 2, 3]] [![0, 0, 0]] =
      Real.sqrt ((List.zipWith sqdist [![1, 2, 3]] [![0, 0, 0]]).sum /
        ([![1, 2, 3]] : List V3).length) ∧
    0 ≤ rmsd [![1, 2, 3]] [![0, 0, 0]] ∧
    rmsd [![1, 2, 3]] [![0, 0, 0]] = rmsd [![0, 0, 0]] [![1, 2, 3]] ∧
    rmsd [![1, 2, 3]] [![1, 2, 3]] = 0 :=
  rmsd_formula_symm_self [![1, 2, 3]] [![0, 0, 0]] rfl

/-! ## The Kabsch rotation is a proper rotation -/

lemma det_mul_self_of_orth {M : Mat3} (h : M.transpose * M = 1) :
    M.det * M.det = 1 := by
  have h2 := congrArg Matrix.det h
  rwa [Matrix.det_mul, Matrix.det_transpose, Matrix.det_one] at h2

lemma corrD_det (U V : Mat3) : (corrD U V).det = corrSign U V := by
  unfold corrD
  rw [Matrix.det_diagonal, Fin.prod_univ_three]
  simp

lemma kabschRot_det {U V : Mat3} (hU : U.transpose * U = 1)
    (hV : V.transpose * V = 1) : (kabschRot U V).det = 1 := by
  have hu := det_mul_self_of_orth hU
  have hv := det_mul_self_of_orth hV
  unfold kabschRot
  rw [Matrix.det_mul, Matrix.det_mul, corrD_det, Matrix.det_transpose]
  have hd2 : (V.det * U.det) * (V.det * U.det) = 1 := by
    calc (V.det * U.det) * (V.det * U.det) = (V.det * V.det) * (U.det * U.det) := by ring
    _ = 1 := by rw [hu, hv, mul_one]
  unfold corrSign
  split
  · next hneg =>
    rw [Matrix.det_mul, Matrix.det_transpose] at hneg
    rcases mul_self_eq_one_iff.mp hd2 with hd | hd
    · exact absurd (hd ▸ hneg) (by norm_num)
    · linear_combination (-1 : ℝ) * hd
  · next hpos =>
    push_neg at hpos
    rw [Matrix.det_mul, Matrix.det_transpose] at hpos
    rcases mul_self_eq_one_iff.mp hd2 with hd | hd
    · linear_combination hd
    · exact absurd (hd ▸ hpos) (by norm_num)

/-- C1: on equal-count inputs, `align` returns the rotation `V'·Uᵀ`
obtained by negating the last column of `V` exactly when `det (V·Uᵀ)` is
negative, and that rotation always has determinant +1 — a proper
rotation, never a reflection. -/
theorem align_rotation_proper (sv : SVD3) (ps qs : List V3)
    (hvalid : sv.Valid (cov ps qs)) :
    ∀ r, alignCoords sv ps qs = .ok r →
      r.rot = sv.V * corrD sv.U sv.V * sv.U.transpose ∧ r.rot.det = 1 := by
  intro r hr
  unfold alignCoords at hr
  split at hr
  · injection hr with hr'
    subst hr'
    exact ⟨rfl, kabschRot_det hvalid.1 hvalid.2.1⟩
  · exact Except.noConfusion hr

/-- Witness for C1 at the empty coordinate pair with the trivial SVD of
the zero covariance matrix. -/
theorem align_rotation_proper_witness :
    (kabschRot (1 : Mat3) (1 : Mat3)).det = 1 :=
  (align_rotation_proper ⟨1, 0, 1⟩ [] []
    ⟨by simp, by simp, by
      show cov [] [] = (1 : Mat3) * 0 * (1 : Mat3).transpose
      rw [Matrix.mul_zero, Matrix.zero_mul]
      rfl,
     0, 0, 0, by
      show (0 : Mat3) = Matrix.diagonal ![0, 0, 0]
      ext i j
      fin_cases i <;> fin_cases j <;> simp [Matrix.diagonal],
     le_refl 0, le_refl 0, le_refl 0⟩
    ⟨kabschRot 1 1, kabschTrans 1 1 [] [], []⟩ rfl).2

/-! ## Kabsch optimality: vector and list-sum lemmas -/

lemma sqnorm_zero : sqnorm 0 = 0 := by
  unfold sqnorm
  simp

lemma sqnorm_nonneg (v : V3) : 0 ≤ sqnorm v := by
  unfold sqnorm Matrix.dotProduct
  apply Finset.sum_nonneg
  intro i _
  exact mul_self_nonneg _

lemma sqnorm_add (u w : V3) :
    sqnorm (u + w) = sqnorm u + 2 * Matrix.dotProduct u w + sqnorm w := by
  unfold sqnorm Matrix.dotProduct
  rw [Fin.sum_univ_three, Fin.sum_univ_three, Fin.sum_univ_three, Fin.sum_univ_three]
  simp only [Pi.add_apply]
  ring

lemma sqnorm_sub (u w : V3) :
    sqnorm (u - w) = sqnorm u - 2 * Matrix.dotProduct u w + sqnorm w := by
  unfold sqnorm Matrix.dotProduct
  rw [Fin.sum_univ_three, Fin.sum_univ_three, Fin.sum_univ_three, Fin.sum_univ_three]
  simp only [Pi.sub_apply]
  ring

lemma zipWith_congr_fun {α β γ : Type} {f g : α → β → γ} (h : ∀ a b, f a b = g a b) :
    ∀ (xs : List α) (ys : List β), List.zipWith f xs ys = List.zipWith g xs ys := by
  intro xs
  induction xs with
  | nil => intro ys; rfl
  | cons x xs ih =>
    intro ys
    cases ys with
    | nil => rfl
    | cons y ys => rw [List.zipWith_cons_cons, List.zipWith_cons_cons, h, ih]

lemma zipWith_sum_add (F G : V3 → V3 → ℝ) (xs ys : List V3) :
    (List.zipWith (fun p q => F p q + G p q) xs ys).sum =
      (List.zipWith F xs ys).sum + (List.zipWith G xs ys).sum := by
  induction xs generalizing ys with
  | nil => simp
  | cons x xs ih =>
    cases ys with
    | nil => simp
    | cons y ys =>
      rw [List.zipWith_cons_cons, List.zipWith_cons_cons, List.zipWith_cons_cons,
        List.sum_cons, List.sum_cons, List.sum_cons, ih]
      ring

lemma zipWith_sum_const (c : ℝ) (xs ys : List V3) (hlen : xs.length = ys.length) :
    (List.zipWith (fun _ _ => c) xs ys).sum = xs.length * c := by
  induction xs generalizing ys with
  | nil => simp
  | cons x xs ih =>
    cases ys with
    | nil => simp at hlen
    | cons y ys =>
      rw [List.zipWith_cons_cons, List.sum_cons, ih ys (Nat.succ_injective hlen),
        List.length_cons]
      push_cast
      ring

lemma zipWith_dot_sum (w : V3) (u : V3 → V3 → V3) (xs ys : List V3) :
    (List.zipWith (fun p q => Matrix.dotProduct (u p q) w) xs ys).sum =
      Matrix.dotProduct ((List.zipWith u xs ys).sum) w := by
  induction xs generalizing ys with
  | nil => simp
  | cons x xs ih =>
    cases ys with
    | nil => simp
    | cons y ys =>
      rw [List.zipWith_cons_cons, List.zipWith_cons_cons, List.sum_cons, List.sum_cons,
        ih, Matrix.add_dotProduct]

lemma zipWith_sum_smul (c : ℝ) (F : V3 → V3 → ℝ) (xs ys : List V3) :
    (List.zipWith (fun p q => c * F p q) xs ys).sum =
      c * (List.zipWith F xs ys).sum := by
  induction xs generalizing ys with
  | nil => simp
  | cons x xs ih =>
    cases ys with
    | nil => simp
    | cons y ys =>
      rw [List.zipWith_cons_cons, List.zipWith_cons_cons, List.sum_cons, List.sum_cons,
        ih]
      ring

lemma zipWith_fst_sum (F : V3 → ℝ) (xs ys : List V3) (hlen : xs.length = ys.length) :
    (List.zipWith (fun p _ => F p) xs ys).sum = (xs.map F).sum := by
  induction xs generalizing ys with
  | nil => simp
  | cons x xs ih =>
    cases ys with
    | nil => simp at hlen
    | cons y ys =>
      rw [List.zipWith_cons_cons, List.sum_cons, List.map_cons, List.sum_cons,
        ih ys (Nat.succ_injective hlen)]

lemma zipWith_snd_sum (F : V3 → ℝ) (xs ys : List V3) (hlen : xs.length = ys.length) :
    (List.zipWith (fun _ q => F q) xs ys).sum = (ys.map F).sum := by
  induction xs generalizing ys with
  | nil =>
    rw [List.length_nil] at hlen
    rw [eq_comm, List.length_eq_zero] at hlen
    subst hlen
    rfl
  | cons x xs ih =>
    cases ys with
    | nil => simp at hlen
    | cons y ys =>
      rw [List.zipWith_cons_cons, List.sum_cons, List.map_cons, List.sum_cons,
        ih ys (Nat.succ_injective hlen)]

lemma zipWith_sub_sum (f g : V3 → V3) (xs ys : List V3) (hlen : xs.length = ys.length) :
    (List.zipWith (fun p q => f p - g q) xs ys).sum =
      (xs.map f).sum - (ys.map g).sum := by
  induction xs generalizing ys with
  | nil =>
    rw [List.length_nil] at hlen
    rw [eq_comm, List.length_eq_zero] at hlen
    subst hlen
    simp
  | cons x xs ih =>
    cases ys with
    | nil => simp at hlen
    | cons y ys =>
      rw [List.zipWith_cons_cons, List.sum_cons, List.map_cons, List.map_cons,
        List.sum_cons, List.sum_cons, ih ys (Nat.succ_injective hlen)]
      abel

lemma map_mulVec_sum (Q : Mat3) (xs : List V3) :
    (xs.map (Q.mulVec ·)).sum = Q.mulVec xs.sum := by
  induction xs with
  | nil => simp [Matrix.mulVec_zero]
  | cons x xs ih =>
    rw [List.map_cons, List.sum_cons, List.sum_cons, ih, Matrix.mulVec_add]

lemma map_sub_const_sum (c : V3) (ps : List V3) :
    (ps.map (· - c)).sum = ps.sum - (ps.length : ℝ) • c := by
  induction ps with
  | nil => simp
  | cons p ps ih =>
    rw [List.map_cons, List.sum_cons, ih, List.sum_cons, List.length_cons]
    push_cast
    rw [add_smul, one_smul]
    abel

lemma centered_sum (ps : List V3) : (centered ps).sum = 0 := by
  unfold centered centroid
  cases ps with
  | nil => rfl
  | cons p ps =>
    rw [map_sub_const_sum, smul_smul, mul_inv_cancel₀, one_smul, sub_self]
    rw [List.length_cons]
    push_cast
    intro h
    nlinarith [h, Nat.cast_nonneg (α := ℝ) ps.length]

lemma centered_length (ps : List V3) : (centered ps).length = ps.length := by
  unfold centered
  rw [List.length_map]

lemma sqnorm_mulVec_orth {Q : Mat3} (hQ : Q.transpose * Q = 1) (x : V3) :
    sqnorm (Q.mulVec x) = sqnorm x := by
  unfold sqnorm
  calc Matrix.dotProduct (Q.mulVec x) (Q.mulVec x)
      = Matrix.dotProduct (Matrix.vecMul (Q.mulVec x) Q) x := Matrix.dotProduct_mulVec _ _ _
    _ = Matrix.dotProduct x x := by
        rw [show Q.mulVec x = Matrix.vecMul x Q.transpose by
          rw [← Matrix.mulVec_transpose, Matrix.transpose_transpose]]
        rw [Matrix.vecMul_vecMul, hQ, Matrix.vecMul_one]

lemma dot_mulVec_eq_trace (Q : Mat3) (x y : V3) :
    Matrix.dotProduct y (Q.mulVec x) = (Q * Matrix.vecMulVec x y).trace := by
  unfold Matrix.trace Matrix.vecMulVec Matrix.dotProduct Matrix.mulVec
  simp only [Matrix.diag_apply, Matrix.mul_apply, Matrix.of_apply, Matrix.dotProduct,
    Fin.sum_univ_three]
  ring

lemma zipWith_trace_sum (Q : Mat3) (xs ys : List V3) :
    (List.zipWith (fun x y => (Q * Matrix.vecMulVec x y).trace) xs ys).sum =
      (Q * (List.zipWith Matrix.vecMulVec xs ys).sum).trace := by
  induction xs generalizing ys with
  | nil => simp
  | cons x xs ih =>
    cases ys with
    | nil => simp
    | cons y ys =>
      rw [List.zipWith_cons_cons, List.zipWith_cons_cons, List.sum_cons, List.sum_cons,
        ih, Matrix.mul_add, Matrix.trace_add]

/-- Decomposition of the SSD of a rigidly transformed set against a
reference into the centered SSD plus the centroid-shift penalty. -/
lemma ssd_map_affine (Q : Mat3) (t : V3) (ps qs : List V3)
    (hlen : ps.length = qs.length) :
    ssd (ps.map fun p => Q.mulVec p + t) qs =
      ssd ((centered ps).map (Q.mulVec ·)) (centered qs) +
        ps.length * sqnorm (Q.mulVec (centroid ps) + t - centroid qs) := by
  unfold ssd
  rw [List.zipWith_map_left]
  have hpt : ∀ p q : V3, sqdist (Q.mulVec p + t) q =
      sqnorm (Q.mulVec (p - centroid ps) - (q - centroid qs)) +
        (2 * Matrix.dotProduct (Q.mulVec (p - centroid ps) - (q - centroid qs))
          (Q.mulVec (centroid ps) + t - centroid qs) +
          sqnorm (Q.mulVec (centroid ps) + t - centroid qs)) := by
    intro p q
    rw [← add_assoc, ← sqnorm_add]
    unfold sqdist
    congr 1
    rw [Matrix.mulVec_sub]
    abel
  rw [zipWith_congr_fun hpt]
  rw [zipWith_sum_add (fun p q => sqnorm (Q.mulVec (p - centroid ps) - (q - centroid qs)))
    (fun p q => 2 * Matrix.dotProduct (Q.mulVec (p - centroid ps) - (q - centroid qs))
      (Q.mulVec (centroid ps) + t - centroid qs) +
      sqnorm (Q.mulVec (centroid ps) + t - centroid qs))]
  rw [zipWith_sum_add (fun p q => 2 * Matrix.dotProduct
      (Q.mulVec (p - centroid ps) - (q - centroid qs))
      (Q.mulVec (centroid ps) + t - centroid qs))
    (fun _ _ => sqnorm (Q.mulVec (centroid ps) + t - centroid qs))]
  have hcross : (List.zipWith (fun p q => 2 * Matrix.dotProduct
      (Q.mulVec (p - centroid ps) - (q - centroid qs))
      (Q.mulVec (centroid ps) + t - centroid qs)) ps qs).sum = 0 := by
    rw [zipWith_sum_smul 2 (fun p q => Matrix.dotProduct
      (Q.mulVec (p - centroid ps) - (q - centroid qs))
      (Q.mulVec (centroid ps) + t - centroid qs))]
    rw [zipWith_dot_sum _ (fun p q => Q.mulVec (p - centroid ps) - (q - centroid qs))]
    rw [zipWith_sub_sum (fun p => Q.mulVec (p - centroid ps)) (fun q => q - centroid qs)
      ps qs hlen]
    have h1 : (ps.map fun p => Q.mulVec (p - centroid ps)).sum = 0 := by
      have : (ps.map fun p => Q.mulVec (p - centroid ps)) =
          ((ps.map (· - centroid ps)).map (Q.mulVec ·)) := by
        rw [List.map_map]
        rfl
      rw [this, map_mulVec_sum]
      have hc : (ps.map (· - centroid ps)).sum = 0 := centered_sum ps
      rw [hc, Matrix.mulVec_zero]
    have h2 : (qs.map fun q => q - centroid qs).sum = 0 := centered_sum qs
    rw [h1, h2, sub_zero, Matrix.zero_dotProduct, mul_zero]
  rw [hcross, zero_add]
  rw [zipWith_sum_const _ ps qs hlen]
  congr 1
  unfold centered
  rw [List.zipWith_map_left, List.zipWith_map_right, List.zipWith_map_left]
  rfl

/-- The centered SSD of an orthogonally transformed set equals the sum
of both sets' squared norms minus twice the trace of `Q · cov`. -/
lemma ssd_centered_trace (Q : Mat3) (hQ : Q.transpose * Q = 1) (ps qs : List V3)
    (hlen : ps.length = qs.length) :
    ssd ((centered ps).map (Q.mulVec ·)) (centered qs) =
      ((centered ps).map sqnorm).sum + ((centered qs).map sqnorm).sum -
        2 * (Q * cov ps qs).trace := by
  unfold ssd
  rw [List.zipWith_map_left]
  have hlen2 : (centered ps).length = (centered qs).length := by
    rw [centered_length, centered_length, hlen]
  have hpt : ∀ x y : V3, sqdist (Q.mulVec x) y =
      (sqnorm x + sqnorm y) +
        (-2) * (Q * Matrix.vecMulVec x y).trace := by
    intro x y
    unfold sqdist
    rw [sqnorm_sub, sqnorm_mulVec_orth hQ, Matrix.dotProduct_comm,
      dot_mulVec_eq_trace]
    ring
  rw [zipWith_congr_fun hpt]
  rw [zipWith_sum_add (fun x y => sqnorm x + sqnorm y)
    (fun x y => (-2) * (Q * Matrix.vecMulVec x y).trace)]
  rw [zipWith_sum_add (fun x _ => sqnorm x) (fun _ y => sqnorm y)]
  rw [zipWith_fst_sum sqnorm _ _ hlen2, zipWith_snd_sum sqnorm _ _ hlen2]
  rw [zipWith_sum_smul (-2) (fun x y => (Q * Matrix.vecMulVec x y).trace)]
  rw [zipWith_trace_sum]
  unfold cov
  ring

/-! ## Trace bounds on (special) orthogonal 3×3 matrices -/

set_option maxHeartbeats 1000000 in
/-- A special orthogonal 3×3 matrix has trace at least −1 (quaternion
square identity: `4(1 + tr) = (1 + tr)² + Σ (skew parts)²`). -/
lemma so3_trace_ge {N : Mat3} (horth : N.transpose * N = 1) (hdet : N.det = 1) :
    -1 ≤ N.trace := by
  have hrows : N * N.transpose = 1 := Matrix.mul_eq_one_comm.mp horth
  have e00 : N 0 0 * N 0 0 + N 0 1 * N 0 1 + N 0 2 * N 0 2 = 1 := by
    have h := congrFun (congrFun hrows 0) 0
    simpa [Matrix.mul_apply, Matrix.transpose_apply, Matrix.one_apply,
      Fin.sum_univ_three] using h
  have e11 : N 1 0 * N 1 0 + N 1 1 * N 1 1 + N 1 2 * N 1 2 = 1 := by
    have h := congrFun (congrFun hrows 1) 1
    simpa [Matrix.mul_apply, Matrix.transpose_apply, Matrix.one_apply,
      Fin.sum_univ_three] using h
  have e22 : N 2 0 * N 2 0 + N 2 1 * N 2 1 + N 2 2 * N 2 2 = 1 := by
    have h := congrFun (congrFun hrows 2) 2
    simpa [Matrix.mul_apply, Matrix.transpose_apply, Matrix.one_apply,
      Fin.sum_univ_three] using h
  have e01 : N 0 0 * N 1 0 + N 0 1 * N 1 1 + N 0 2 * N 1 2 = 0 := by
    have h := congrFun (congrFun hrows 0) 1
    simpa [Matrix.mul_apply, Matrix.transpose_apply, Matrix.one_apply,
      Fin.sum_univ_three] using h
  have hd := hdet
  rw [Matrix.det_fin_three] at hd
  have lag : (N 0 1 * N 1 2 - N 0 2 * N 1 1) ^ 2 + (N 0 2 * N 1 0 - N 0 0 * N 1 2) ^ 2 +
      (N 0 0 * N 1 1 - N 0 1 * N 1 0) ^ 2 = 1 := by
    linear_combination (N 1 0 * N 1 0 + N 1 1 * N 1 1 + N 1 2 * N 1 2) * e00 + e11 -
      (N 0 0 * N 1 0 + N 0 1 * N 1 1 + N 0 2 * N 1 2) * e01
  have hsq : (N 2 0 - (N 0 1 * N 1 2 - N 0 2 * N 1 1)) ^ 2 +
      (N 2 1 - (N 0 2 * N 1 0 - N 0 0 * N 1 2)) ^ 2 +
      (N 2 2 - (N 0 0 * N 1 1 - N 0 1 * N 1 0)) ^ 2 = 0 := by
    linear_combination e22 + lag - 2 * hd
  have h3 : N 2 2 = N 0 0 * N 1 1 - N 0 1 * N 1 0 := by
    have hle : (N 2 2 - (N 0 0 * N 1 1 - N 0 1 * N 1 0)) ^ 2 ≤ 0 := by
      nlinarith [sq_nonneg (N 2 0 - (N 0 1 * N 1 2 - N 0 2 * N 1 1)),
        sq_nonneg (N 2 1 - (N 0 2 * N 1 0 - N 0 0 * N 1 2))]
    have h0 : (N 2 2 - (N 0 0 * N 1 1 - N 0 1 * N 1 0)) ^ 2 = 0 :=
      le_antisymm hle (sq_nonneg _)
    have := pow_eq_zero_iff (two_ne_zero) |>.mp h0
    linarith [this]
  have key : 4 * (1 + (N 0 0 + N 1 1 + (N 0 0 * N 1 1 - N 0 1 * N 1 0))) =
      (1 + (N 0 0 + N 1 1 + (N 0 0 * N 1 1 - N 0 1 * N 1 0))) ^ 2 +
      ((N 0 2 * N 1 0 - N 0 0 * N 1 2) - N 1 2) ^ 2 +
      (N 0 2 - (N 0 1 * N 1 2 - N 0 2 * N 1 1)) ^ 2 +
      (N 1 0 - N 0 1) ^ 2 := by
    linear_combination (-2 * N 1 1 - 2) * e00 +
      (-(N 0 0 ^ 2 + 2 * N 0 0 + N 0 1 ^ 2 + N 0 2 ^ 2 + 1)) * e11 +
      (N 0 0 * N 1 0 + N 0 1 * N 1 1 + 2 * N 0 1 + N 0 2 * N 1 2 + 2 * N 1 0) * e01
  rw [Matrix.trace_fin_three, h3]
  nlinarith [key, sq_nonneg (1 + (N 0 0 + N 1 1 + (N 0 0 * N 1 1 - N 0 1 * N 1 0))),
    sq_nonneg ((N 0 2 * N 1 0 - N 0 0 * N 1 2) - N 1 2),
    sq_nonneg (N 0 2 - (N 0 1 * N 1 2 - N 0 2 * N 1 1)),
    sq_nonneg (N 1 0 - N 0 1)]

/-- An orthogonal 3×3 matrix of determinant −1 has trace at most 1. -/
lemma o3_trace_le {M : Mat3} (horth : M.transpose * M = 1) (hdet : M.det = -1) :
    M.trace ≤ 1 := by
  have h1 : (-M).transpose * (-M) = 1 := by
    rw [Matrix.transpose_neg, Matrix.neg_mul, Matrix.mul_neg, neg_neg]
    exact horth
  have h2 : (-M).det = 1 := by
    rw [Matrix.det_neg, hdet]
    norm_num [Fintype.card_fin]
  have h3 := so3_trace_ge h1 h2
  rw [Matrix.trace_neg] at h3
  linarith

/-- An orthogonal matrix has diagonal entries at most 1. -/
lemma orth_diag_bounds {M : Mat3} (horth : M.transpose * M = 1) :
    M 0 0 ≤ 1 ∧ M 1 1 ≤ 1 ∧ M 2 2 ≤ 1 := by
  have c0 : M 0 0 * M 0 0 + M 1 0 * M 1 0 + M 2 0 * M 2 0 = 1 := by
    have h := congrFun (congrFun horth 0) 0
    simpa [Matrix.mul_apply, Matrix.transpose_apply, Matrix.one_apply,
      Fin.sum_univ_three] using h
  have c1 : M 0 1 * M 0 1 + M 1 1 * M 1 1 + M 2 1 * M 2 1 = 1 := by
    have h := congrFun (congrFun horth 1) 1
    simpa [Matrix.mul_apply, Matrix.transpose_apply, Matrix.one_apply,
      Fin.sum_univ_three] using h
  have c2 : M 0 2 * M 0 2 + M 1 2 * M 1 2 + M 2 2 * M 2 2 = 1 := by
    have h := congrFun (congrFun horth 2) 2
    simpa [Matrix.mul_apply, Matrix.transpose_apply, Matrix.one_apply,
      Fin.sum_univ_three] using h
  refine ⟨?_, ?_, ?_⟩
  · nlinarith [sq_nonneg (M 0 0 - 1), sq_nonneg (M 1 0), sq_nonneg (M 2 0)]
  · nlinarith [sq_nonneg (M 1 1 - 1), sq_nonneg (M 0 1), sq_nonneg (M 2 1)]
  · nlinarith [sq_nonneg (M 2 2 - 1), sq_nonneg (M 0 2), sq_nonneg (M 1 2)]

/-- Weighted diagonal bound: the singular-value-weighted diagonal sum of
an orthogonal matrix of determinant `e = ±1` is at most
`s1 + s2 + e·s3`. -/
lemma weighted_diag_bound {M : Mat3} (horth : M.transpose * M = 1)
    {s1 s2 s3 e : ℝ} (h12 : s2 ≤ s1) (h23 : s3 ≤ s2) (h3 : 0 ≤ s3)
    (hdet : M.det = e) (he : e = 1 ∨ e = -1) :
    s1 * M 0 0 + s2 * M 1 1 + s3 * M 2 2 ≤ s1 + s2 + e * s3 := by
  obtain ⟨hb0, hb1, hb2⟩ := orth_diag_bounds horth
  rcases he with he | he
  · subst he
    nlinarith [mul_nonneg (show (0:ℝ) ≤ s1 by linarith) (sub_nonneg.mpr hb0),
      mul_nonneg (show (0:ℝ) ≤ s2 by linarith) (sub_nonneg.mpr hb1),
      mul_nonneg h3 (sub_nonneg.mpr hb2)]
  · subst he
    have htr : M.trace ≤ 1 := o3_trace_le horth hdet
    rw [Matrix.trace_fin_three] at htr
    nlinarith [mul_nonneg (sub_nonneg.mpr h12) (sub_nonneg.mpr hb0),
      mul_nonneg (sub_nonneg.mpr h23)
        (show (0:ℝ) ≤ 2 - (M 0 0 + M 1 1) by linarith),
      mul_nonneg h3 (show (0:ℝ) ≤ 1 - (M 0 0 + M 1 1 + M 2 2) by linarith)]

lemma corrSign_mul_self (U V : Mat3) : corrSign U V * corrSign U V = 1 := by
  unfold corrSign
  split <;> norm_num

lemma corrD_transpose (U V : Mat3) : (corrD U V).transpose = corrD U V := by
  unfold corrD
  exact Matrix.diagonal_transpose _

lemma corrD_mul_self (U V : Mat3) : corrD U V * corrD U V = 1 := by
  unfold corrD
  rw [Matrix.diagonal_mul_diagonal]
  have hee := corrSign_mul_self U V
  ext i j
  by_cases hij : i = j
  · subst hij
    rw [Matrix.diagonal_apply_eq, Matrix.one_apply_eq]
    fin_cases i <;> simp [hee]
  · rw [Matrix.diagonal_apply_ne _ hij, Matrix.one_apply_ne hij]

lemma kabschRot_orth {U V : Mat3} (hU : U.transpose * U = 1)
    (hV : V.transpose * V = 1) :
    (kabschRot U V).transpose * kabschRot U V = 1 := by
  have hUU : U * U.transpose = 1 := Matrix.mul_eq_one_comm.mp hU
  unfold kabschRot
  rw [Matrix.transpose_mul, Matrix.transpose_mul, Matrix.transpose_transpose,
    corrD_transpose]
  calc U * (corrD U V * V.transpose) * (V * corrD U V * U.transpose)
      = U * (corrD U V * (V.transpose * V) * corrD U V) * U.transpose := by
        simp only [Matrix.mul_assoc]
    _ = U * U.transpose := by
        rw [hV, Matrix.mul_one, corrD_mul_self, Matrix.mul_one]
    _ = 1 := hUU

lemma corrSign_eq_det {U V : Mat3} (hU : U.transpose * U = 1)
    (hV : V.transpose * V = 1) : corrSign U V = V.det * U.det := by
  have hu := det_mul_self_of_orth hU
  have hv := det_mul_self_of_orth hV
  have hd2 : (V.det * U.det) * (V.det * U.det) = 1 := by
    calc (V.det * U.det) * (V.det * U.det) = (V.det * V.det) * (U.det * U.det) := by
          ring
    _ = 1 := by rw [hu, hv, mul_one]
  unfold corrSign
  split
  · next hneg =>
    rw [Matrix.det_mul, Matrix.det_transpose] at hneg
    rcases mul_self_eq_one_iff.mp hd2 with hd | hd
    · exact absurd (hd ▸ hneg) (by norm_num)
    · rw [hd]
  · next hpos =>
    push_neg at hpos
    rw [Matrix.det_mul, Matrix.det_transpose] at hpos
    rcases mul_self_eq_one_iff.mp hd2 with hd | hd
    · rw [hd]
    · exact absurd (hd ▸ hpos) (by norm_num)

/-- Trace of `Q·A` expressed through the diagonal of `Vᵀ·Q·U`, when
`A = U·S·Vᵀ` with `S` diagonal. -/
lemma trace_QA (Q U V : Mat3) (S : Mat3) (s1 s2 s3 : ℝ)
    (hS : S = Matrix.diagonal ![s1, s2, s3]) :
    (Q * (U * S * V.transpose)).trace =
      s1 * (V.transpose * Q * U) 0 0 + s2 * (V.transpose * Q * U) 1 1 +
        s3 * (V.transpose * Q * U) 2 2 := by
  subst hS
  have hassoc : Q * (U * Matrix.diagonal ![s1, s2, s3] * V.transpose) =
      (Q * U) * Matrix.diagonal ![s1, s2, s3] * V.transpose := by
    simp only [Matrix.mul_assoc]
  rw [hassoc, Matrix.trace_mul_cycle, ← Matrix.mul_assoc, Matrix.trace_fin_three,
    Matrix.mul_diagonal, Matrix.mul_diagonal, Matrix.mul_diagonal]
  show _ * s1 + _ * s2 + _ * s3 = _
  ring

/-- The similarity `Vᵀ·(kabschRot U V)·U` collapses to the correction
matrix. -/
lemma kabschRot_similar {U V : Mat3} (hU : U.transpose * U = 1)
    (hV : V.transpose * V = 1) :
    V.transpose * kabschRot U V * U = corrD U V := by
  unfold kabschRot
  calc V.transpose * (V * corrD U V * U.transpose) * U
      = (V.transpose * V) * (corrD U V * (U.transpose * U)) := by
        simp only [Matrix.mul_assoc]
    _ = corrD U V := by rw [hU, hV, Matrix.mul_one, Matrix.one_mul]

lemma corrD_diag (U V : Mat3) :
    corrD U V 0 0 = 1 ∧ corrD U V 1 1 = 1 ∧ corrD U V 2 2 = corrSign U V := by
  unfold corrD
  refine ⟨?_, ?_, ?_⟩ <;> rw [Matrix.diagonal_apply_eq] <;> simp

/-- Orthogonality of `Vᵀ·Q·U` for orthogonal `Q`, `U`, `V`. -/
lemma similar_orth {Q U V : Mat3} (hQ : Q.transpose * Q = 1)
    (hU : U.transpose * U = 1) (hV : V.transpose * V = 1) :
    (V.transpose * Q * U).transpose * (V.transpose * Q * U) = 1 := by
  have hVV : V * V.transpose = 1 := Matrix.mul_eq_one_comm.mp hV
  rw [Matrix.transpose_mul, Matrix.transpose_mul, Matrix.transpose_transpose]
  calc U.transpose * (Q.transpose * V) * (V.transpose * Q * U)
      = U.transpose * (Q.transpose * (V * V.transpose) * Q) * U := by
        simp only [Matrix.mul_assoc]
    _ = U.transpose * U := by
        rw [hVV, Matrix.mul_one, hQ, Matrix.mul_one]
  exact hU

lemma similar_det (Q U V : Mat3) (hdetQ : Q.det = 1) :
    (V.transpose * Q * U).det = V.det * U.det := by
  rw [Matrix.det_mul, Matrix.det_mul, Matrix.det_transpose, hdetQ, mul_one]

/-- Kabsch optimality: the rotation-plus-translation returned by the
alignment minimizes the sum of squared distances to the reference over
all proper rigid transformations of the mobile set. -/
lemma kabsch_optimal (sv : SVD3) (ps qs : List V3) (hlen : ps.length = qs.length)
    (hvalid : sv.Valid (cov ps qs)) (R : Mat3) (hR : R.transpose * R = 1)
    (hdetR : R.det = 1) (t : V3) :
    ssd (ps.map fun p => (kabschRot sv.U sv.V).mulVec p +
        kabschTrans sv.U sv.V ps qs) qs ≤
      ssd (ps.map fun p => R.mulVec p + t) qs := by
  obtain ⟨hU, hV, hA, s1, s2, s3, hS, h12, h23, h3⟩ := hvalid
  have hRK : (kabschRot sv.U sv.V).transpose * kabschRot sv.U sv.V = 1 :=
    kabschRot_orth hU hV
  rw [ssd_map_affine _ _ _ _ hlen, ssd_map_affine _ _ _ _ hlen]
  have hw : (kabschRot sv.U sv.V).mulVec (centroid ps) + kabschTrans sv.U sv.V ps qs -
      centroid qs = 0 := by
    unfold kabschTrans
    abel
  rw [hw, sqnorm_zero, mul_zero, add_zero]
  have hd2 : (sv.V.det * sv.U.det) * (sv.V.det * sv.U.det) = 1 := by
    have hu := det_mul_self_of_orth hU
    have hv := det_mul_self_of_orth hV
    calc (sv.V.det * sv.U.det) * (sv.V.det * sv.U.det)
        = (sv.V.det * sv.V.det) * (sv.U.det * sv.U.det) := by ring
      _ = 1 := by rw [hu, hv, mul_one]
  have htrR : (R * cov ps qs).trace ≤ s1 + s2 + corrSign sv.U sv.V * s3 := by
    rw [hA, trace_QA R sv.U sv.V sv.S s1 s2 s3 hS, corrSign_eq_det hU hV]
    exact weighted_diag_bound (similar_orth hR hU hV) h12 h23 h3
      (similar_det R sv.U sv.V hdetR) (mul_self_eq_one_iff.mp hd2)
  have htrK : (kabschRot sv.U sv.V * cov ps qs).trace =
      s1 + s2 + corrSign sv.U sv.V * s3 := by
    rw [hA, trace_QA (kabschRot sv.U sv.V) sv.U sv.V sv.S s1 s2 s3 hS,
      kabschRot_similar hU hV]
    obtain ⟨hD0, hD1, hD2⟩ := corrD_diag sv.U sv.V
    rw [hD0, hD1, hD2]
    ring
  have h1 : ssd ((centered ps).map ((kabschRot sv.U sv.V).mulVec ·)) (centered qs) ≤
      ssd ((centered ps).map (R.mulVec ·)) (centered qs) := by
    rw [ssd_centered_trace _ hRK _ _ hlen, ssd_centered_trace _ hR _ _ hlen]
    linarith
  have h2 : (0:ℝ) ≤ ps.length * sqnorm (R.mulVec (centroid ps) + t - centroid qs) :=
    mul_nonneg (Nat.cast_nonneg _) (sqnorm_nonneg _)
  linarith

lemma sqnorm_eq_zero {v : V3} (h : sqnorm v = 0) : v = 0 := by
  unfold sqnorm Matrix.dotProduct at h
  rw [Fin.sum_univ_three] at h
  have h0 : v 0 = 0 := by
    nlinarith [mul_self_nonneg (v 0), mul_self_nonneg (v 1), mul_self_nonneg (v 2)]
  have h1 : v 1 = 0 := by
    nlinarith [mul_self_nonneg (v 0), mul_self_nonneg (v 1), mul_self_nonneg (v 2)]
  have h2 : v 2 = 0 := by
    nlinarith [mul_self_nonneg (v 0), mul_self_nonneg (v 1), mul_self_nonneg (v 2)]
  funext i
  fin_cases i
  · exact h0
  · exact h1
  · exact h2

lemma rot_cols_identity (R : Mat3) (t : V3)
    (hR : R.transpose * R = 1) (hdet : R.det = 1)
    (ht : t = ![0, 0, 1])
    (hc0 : R.mulVec ![1, 0, 0] + t = ![1, 0, 1])
    (hc1 : R.mulVec ![0, 1, 0] + t = ![0, 1, 1]) : R = 1 := by
  subst ht
  have e0 : ∀ i : Fin 3, R i 0 = (![1, 0, 0] : V3) i := by
    intro i
    have h := congrFun hc0 i
    simp [Matrix.mulVec, Matrix.dotProduct, Fin.sum_univ_three] at h
    fin_cases i <;> simp_all
  have e1 : ∀ i : Fin 3, R i 1 = (![0, 1, 0] : V3) i := by
    intro i
    have h := congrFun hc1 i
    simp [Matrix.mulVec, Matrix.dotProduct, Fin.sum_univ_three] at h
    fin_cases i <;> simp_all
  have h00 : R 0 0 = 1 := by simpa using e0 0
  have h10 : R 1 0 = 0 := by simpa using e0 1
  have h20 : R 2 0 = 0 := by simpa using e0 2
  have h01 : R 0 1 = 0 := by simpa using e1 0
  have h11 : R 1 1 = 1 := by simpa using e1 1
  have h21 : R 2 1 = 0 := by simpa using e1 2
  have o02 : R 0 0 * R 0 2 + R 1 0 * R 1 2 + R 2 0 * R 2 2 = 0 := by
    have h := congrFun (congrFun hR 0) 2
    simpa [Matrix.mul_apply, Matrix.transpose_apply, Matrix.one_apply,
      Fin.sum_univ_three] using h
  have o12 : R 0 1 * R 0 2 + R 1 1 * R 1 2 + R 2 1 * R 2 2 = 0 := by
    have h := congrFun (congrFun hR 1) 2
    simpa [Matrix.mul_apply, Matrix.transpose_apply, Matrix.one_apply,
      Fin.sum_univ_three] using h
  have h02 : R 0 2 = 0 := by
    rw [h00, h10, h20] at o02
    linarith [o02]
  have h12 : R 1 2 = 0 := by
    rw [h01, h11, h21] at o12
    linarith [o12]
  have hd := hdet
  rw [Matrix.det_fin_three] at hd
  have h22 : R 2 2 = 1 := by
    rw [h00, h10, h20, h01, h11, h21, h02, h12] at hd
    linarith [hd]
  ext i j
  fin_cases i <;> fin_cases j <;>
    simp [Matrix.one_apply, h00, h10, h20, h01, h11, h21, h02, h12, h22]

/-- C2: the aligned positions returned by `align` minimize the sum of
squared distances to the reference over all proper rigid
transformations; in particular the post-alignment RMSD never exceeds the
unaligned RMSD; and on the documented pure-z-translation scenario,
`align` recovers the identity rotation, the translation (0,0,1), and a
post-alignment RMSD of 0 for every valid SVD of the covariance. -/
theorem align_minimizes_rmsd (sv : SVD3) (ps qs : List V3)
    (hlen : ps.length = qs.length) (hvalid : sv.Valid (cov ps qs)) :
    (∀ res, alignCoords sv ps qs = .ok res →
      (∀ (R : Mat3) (t : V3), R.transpose * R = 1 → R.det = 1 →
        ssd res.aligned qs ≤ ssd (ps.map fun p => R.mulVec p + t) qs) ∧
      rmsd res.aligned qs ≤ rmsd ps qs) ∧
    (∀ sv' : SVD3,
      sv'.Valid (cov [![0, 0, 0], ![1, 0, 0], ![0, 1, 0]]
        [![0, 0, 1], ![1, 0, 1], ![0, 1, 1]]) →
      ∀ res', alignCoords sv' [![0, 0, 0], ![1, 0, 0], ![0, 1, 0]]
          [![0, 0, 1], ![1, 0, 1], ![0, 1, 1]] = .ok res' →
        res'.rot = 1 ∧ res'.trans = ![0, 0, 1] ∧
        rmsd res'.aligned [![0, 0, 1], ![1, 0, 1], ![0, 1, 1]] = 0) := by
  constructor
  · intro res hok
    unfold alignCoords at hok
    rw [if_pos hlen] at hok
    injection hok with h
    subst h
    constructor
    · intro R t hR hdet
      exact kabsch_optimal sv ps qs hlen hvalid R hR hdet t
    · have hssd : ssd (ps.map fun p => (kabschRot sv.U sv.V).mulVec p +
          kabschTrans sv.U sv.V ps qs) qs ≤ ssd ps qs := by
        have h := kabsch_optimal sv ps qs hlen hvalid 1
          (by rw [Matrix.transpose_one, Matrix.one_mul]) Matrix.det_one 0
        have hid : (ps.map fun p => (1 : Mat3).mulVec p + 0) = ps := by
          have h2 : (ps.map fun p => (1 : Mat3).mulVec p + 0) = ps.map id :=
            List.map_congr_left fun p _ => by rw [Matrix.one_mulVec, add_zero]; rfl
          rw [h2, List.map_id]
        rwa [hid] at h
      show rmsd (ps.map fun p => (kabschRot sv.U sv.V).mulVec p +
          kabschTrans sv.U sv.V ps qs) qs ≤ rmsd ps qs
      unfold rmsd
      rw [List.length_map]
      apply Real.sqrt_le_sqrt
      rcases Nat.eq_zero_or_pos ps.length with h0 | hpos
      · rw [List.length_eq_zero] at h0
        subst h0
        simp [ssd]
      · exact (div_le_div_iff_of_pos_right (by exact_mod_cast hpos)).mpr hssd
  · intro sv' hvalid' res' hok
    unfold alignCoords at hok
    have hlen3 : ([![0, 0, 0], ![1, 0, 0], ![0, 1, 0]] : List V3).length =
        ([![0, 0, 1], ![1, 0, 1], ![0, 1, 1]] : List V3).length := rfl
    rw [if_pos hlen3] at hok
    injection hok with h
    subst h
    have hU' := hvalid'.1
    have hV' := hvalid'.2.1
    have hRorth := kabschRot_orth hU' hV'
    have hRdet := kabschRot_det hU' hV'
    have hle := kabsch_optimal sv' [![0, 0, 0], ![1, 0, 0], ![0, 1, 0]]
      [![0, 0, 1], ![1, 0, 1], ![0, 1, 1]] rfl hvalid' 1
      (by rw [Matrix.transpose_one, Matrix.one_mul]) Matrix.det_one ![0, 0, 1]
    have hzero : ssd (([![0, 0, 0], ![1, 0, 0], ![0, 1, 0]] : List V3).map
        fun p => (1 : Mat3).mulVec p + ![0, 0, 1])
        [![0, 0, 1], ![1, 0, 1], ![0, 1, 1]] = 0 := by
      simp [ssd, sqdist, sqnorm, Matrix.one_mulVec, Matrix.dotProduct,
        Fin.sum_univ_three]
    have hnn := ssd_nonneg (([![0, 0, 0], ![1, 0, 0], ![0, 1, 0]] : List V3).map
      fun p => (kabschRot sv'.U sv'.V).mulVec p +
        kabschTrans sv'.U sv'.V [![0, 0, 0], ![1, 0, 0], ![0, 1, 0]]
          [![0, 0, 1], ![1, 0, 1], ![0, 1, 1]])
      [![0, 0, 1], ![1, 0, 1], ![0, 1, 1]]
    have hssd0 : ssd (([![0, 0, 0], ![1, 0, 0], ![0, 1, 0]] : List V3).map
        fun p => (kabschRot sv'.U sv'.V).mulVec p +
          kabschTrans sv'.U sv'.V [![0, 0, 0], ![1, 0, 0], ![0, 1, 0]]
            [![0, 0, 1], ![1, 0, 1], ![0, 1, 1]])
        [![0, 0, 1], ![1, 0, 1], ![0, 1, 1]] = 0 := by
      rw [hzero] at hle
      exact le_antisymm hle hnn
    have hexp : sqdist ((kabschRot sv'.U sv'.V).mulVec ![0, 0, 0] +
          kabschTrans sv'.U sv'.V [![0, 0, 0], ![1, 0, 0], ![0, 1, 0]]
            [![0, 0, 1], ![1, 0, 1], ![0, 1, 1]]) ![0, 0, 1] +
        (sqdist ((kabschRot sv'.U sv'.V).mulVec ![1, 0, 0] +
          kabschTrans sv'.U sv'.V [![0, 0, 0], ![1, 0, 0], ![0, 1, 0]]
            [![0, 0, 1], ![1, 0, 1], ![0, 1, 1]]) ![1, 0, 1] +
        (sqdist ((kabschRot sv'.U sv'.V).mulVec ![0, 1, 0] +
          kabschTrans sv'.U sv'.V [![0, 0, 0], ![1, 0, 0], ![0, 1, 0]]
            [![0, 0, 1], ![1, 0, 1], ![0, 1, 1]]) ![0, 1, 1] + 0)) = 0 := hssd0
    have hd0 := sqdist_nonneg ((kabschRot sv'.U sv'.V).mulVec ![0, 0, 0] +
      kabschTrans sv'.U sv'.V [![0, 0, 0], ![1, 0, 0], ![0, 1, 0]]
        [![0, 0, 1], ![1, 0, 1], ![0, 1, 1]]) ![0, 0, 1]
    have hd1 := sqdist_nonneg ((kabschRot sv'.U sv'.V).mulVec ![1, 0, 0] +
      kabschTrans sv'.U sv'.V [![0, 0, 0], ![1, 0, 0], ![0, 1, 0]]
        [![0, 0, 1], ![1, 0, 1], ![0, 1, 1]]) ![1, 0, 1]
    have hd2 := sqdist_nonneg ((kabschRot sv'.U sv'.V).mulVec ![0, 1, 0] +
      kabschTrans sv'.U sv'.V [![0, 0, 0], ![1, 0, 0], ![0, 1, 0]]
        [![0, 0, 1], ![1, 0, 1], ![0, 1, 1]]) ![0, 1, 1]
    have heq0 : (kabschRot sv'.U sv'.V).mulVec ![0, 0, 0] +
        kabschTrans sv'.U sv'.V [![0, 0, 0], ![1, 0, 0], ![0, 1, 0]]
          [![0, 0, 1], ![1, 0, 1], ![0, 1, 1]] = ![0, 0, 1] := by
      apply sub_eq_zero.mp
      apply sqnorm_eq_zero
      show sqdist _ _ = 0
      linarith
    have heq1 : (kabschRot sv'.U sv'.V).mulVec ![1, 0, 0] +
        kabschTrans sv'.U sv'.V [![0, 0, 0], ![1, 0, 0], ![0, 1, 0]]
          [![0, 0, 1], ![1, 0, 1], ![0, 1, 1]] = ![1, 0, 1] := by
      apply sub_eq_zero.mp
      apply sqnorm_eq_zero
      show sqdist _ _ = 0
      linarith
    have heq2 : (kabschRot sv'.U sv'.V).mulVec ![0, 1, 0] +
        kabschTrans sv'.U sv'.V [![0, 0, 0], ![1, 0, 0], ![0, 1, 0]]
          [![0, 0, 1], ![1, 0, 1], ![0, 1, 1]] = ![0, 1, 1] := by
      apply sub_eq_zero.mp
      apply sqnorm_eq_zero
      show sqdist _ _ = 0
      linarith
    have hz3 : (![0, 0, 0] : V3) = 0 := by
      funext i
      fin_cases i <;> rfl
    have ht : kabschTrans sv'.U sv'.V [![0, 0, 0], ![1, 0, 0], ![0, 1, 0]]
        [![0, 0, 1], ![1, 0, 1], ![0, 1, 1]] = ![0, 0, 1] := by
      rw [hz3, Matrix.mulVec_zero, zero_add] at heq0
      exact heq0
    refine ⟨?_, ht, ?_⟩
    · exact rot_cols_identity _ _ hRorth hRdet ht heq1 heq2
    · show rmsd _ _ = 0
      unfold rmsd
      rw [hssd0, zero_div, Real.sqrt_zero]

/-- Orthogonal factor of a concrete SVD of the scenario covariance. -/
noncomputable def scnU : Mat3 :=
  !![Real.sqrt 2 / 2, Real.sqrt 2 / 2, 0;
     -(Real.sqrt 2 / 2), Real.sqrt 2 / 2, 0;
     0, 0, 1]

lemma scnU_transpose : scnU.transpose =
    !![Real.sqrt 2 / 2, -(Real.sqrt 2 / 2), 0;
       Real.sqrt 2 / 2, Real.sqrt 2 / 2, 0;
       0, 0, 1] := by
  ext i j
  fin_cases i <;> fin_cases j <;> rfl

lemma scnU_orth : scnU.transpose * scnU = 1 := by
  have h2 : Real.sqrt 2 * Real.sqrt 2 = 2 := Real.mul_self_sqrt (by norm_num)
  rw [scnU_transpose]
  ext i j
  fin_cases i <;> fin_cases j <;>
    simp [scnU, Matrix.mul_apply, Matrix.one_apply, Fin.sum_univ_three,
      Matrix.vecHead, Matrix.vecTail] <;>
    first
      | linear_combination h2 / 2
      | linear_combination -h2 / 2
      | linear_combination

lemma scn_cov_eval :
    cov [![0, 0, 0], ![1, 0, 0], ![0, 1, 0]] [![0, 0, 1], ![1, 0, 1], ![0, 1, 1]] =
      !![2/3, -1/3, 0; -1/3, 2/3, 0; 0, 0, 0] := by
  ext i j
  fin_cases i <;> fin_cases j <;>
    simp [cov, centered, centroid, Matrix.vecMulVec, Fin.sum_univ_three,
      Matrix.vecHead, Matrix.vecTail] <;> norm_num

lemma scn_usv_eval : scnU * Matrix.diagonal ![1, 1/3, 0] * scnU.transpose =
    !![2/3, -1/3, 0; -1/3, 2/3, 0; 0, 0, 0] := by
  have h2 : Real.sqrt 2 * Real.sqrt 2 = 2 := Real.mul_self_sqrt (by norm_num)
  rw [scnU_transpose]
  ext i j
  fin_cases i <;> fin_cases j <;>
    simp [scnU, Matrix.mul_apply, Matrix.diagonal, Fin.sum_univ_three,
      Matrix.vecHead, Matrix.vecTail] <;>
    first
      | linear_combination h2 / 3
      | linear_combination -h2 / 6
      | linear_combination h2 / 6
      | linear_combination -h2 / 3
      | linear_combination

lemma scn_valid : SVD3.Valid ⟨scnU, Matrix.diagonal ![1, 1/3, 0], scnU⟩
    (cov [![0, 0, 0], ![1, 0, 0], ![0, 1, 0]] [![0, 0, 1], ![1, 0, 1], ![0, 1, 1]]) := by
  refine ⟨scnU_orth, scnU_orth, ?_, 1, 1/3, 0, rfl, by norm_num, by norm_num, le_refl 0⟩
  show cov _ _ = scnU * Matrix.diagonal ![1, 1/3, 0] * scnU.transpose
  rw [scn_cov_eval]
  exact scn_usv_eval.symm

/-- Witness for C2 at the documented scenario, with a concrete valid SVD
of its covariance: the alignment recovers the identity rotation, the
translation (0,0,1), and post-alignment RMSD 0. -/
theorem align_minimizes_rmsd_witness :
    kabschRot scnU scnU = 1 ∧
    kabschTrans scnU scnU [![0, 0, 0], ![1, 0, 0], ![0, 1, 0]]
      [![0, 0, 1], ![1, 0, 1], ![0, 1, 1]] = ![0, 0, 1] ∧
    rmsd (([![0, 0, 0], ![1, 0, 0], ![0, 1, 0]] : List V3).map fun p =>
        (kabschRot scnU scnU).mulVec p + kabschTrans scnU scnU
          [![0, 0, 0], ![1, 0, 0], ![0, 1, 0]] [![0, 0, 1], ![1, 0, 1], ![0, 1, 1]])
      [![0, 0, 1], ![1, 0, 1], ![0, 1, 1]] = 0 :=
  (align_minimizes_rmsd ⟨scnU, Matrix.diagonal ![1, 1/3, 0], scnU⟩
      [![0, 0, 0], ![1, 0, 0], ![0, 1, 0]] [![0, 0, 1], ![1, 0, 1], ![0, 1, 1]]
      rfl scn_valid).2
    ⟨scnU, Matrix.diagonal ![1, 1/3, 0], scnU⟩ scn_valid
    ⟨kabschRot scnU scnU,
     kabschTrans scnU scnU [![0, 0, 0], ![1, 0, 0], ![0, 1, 0]]
       [![0, 0, 1], ![1, 0, 1], ![0, 1, 1]],
     ([![0, 0, 0], ![1, 0, 0], ![0, 1, 0]] : List V3).map fun p =>
       (kabschRot scnU scnU).mulVec p + kabschTrans scnU scnU
         [![0, 0, 0], ![1, 0, 0], ![0, 1, 0]] [![0, 0, 1], ![1, 0, 1], ![0, 1, 1]]⟩
    rfl

end PdbManip
